import Mathlib

/-!
Verification of the metastore core of cubestore
(`src/rust/cubestore/src/metastore/mod.rs`).

The development shallowly embeds the key codec (`RowKey`), the ordered
key-value engine used through rocksdb (modelled per §6.1 of the spec as a
sorted association list with atomic batches, point gets and prefix scans),
the generic table engine (`RocksTable`), the batch pipe, the transaction
coordinator (`write_operation`) and the domain operations that the claims
mention (`swap_active_partitions`, `add_job`, checkpoint retention, log
replay on cold start).  Machine integers are modelled as `Nat` with
explicit `% 2 ^ w` where the Rust code truncates; byte strings are lists
of `Nat` that are `< 256` by construction.
-/

namespace Metastore

/-- Byte strings (Rust `Vec<u8>`); entries are < 256 by construction. -/
abbrev Bytes := List Nat

/-- Big-endian encoding of `n` into exactly `k` bytes, truncating the high
bits like Rust's `write_u32`/`write_u64` do for in-range machine integers. -/
def beBytes : Nat → Nat → Bytes
  | 0, _ => []
  | k + 1, n => beBytes k (n / 256) ++ [n % 256]

/-- Big-endian decoding (`read_u32::<BigEndian>` / `read_u64::<BigEndian>`). -/
def fromBe (l : Bytes) : Nat := l.foldl (fun a b => a * 256 + b) 0

@[simp] theorem beBytes_length (k n : Nat) : (beBytes k n).length = k := by
  induction k generalizing n with
  | zero => simp [beBytes]
  | succ k ih => simp [beBytes, ih]

theorem fromBe_base (a : Nat) (l : Bytes) :
    l.foldl (fun x b => x * 256 + b) a = a * 256 ^ l.length + fromBe l := by
  induction l generalizing a with
  | nil => simp [fromBe]
  | cons b bs ih =>
    have h0 : fromBe (b :: bs) = b * 256 ^ bs.length + fromBe bs := by
      simp only [fromBe, List.foldl_cons, Nat.zero_mul, Nat.zero_add]
      exact ih b
    simp only [List.foldl_cons, List.length_cons, h0]
    rw [ih (a * 256 + b)]
    ring

theorem fromBe_append (l₁ l₂ : Bytes) :
    fromBe (l₁ ++ l₂) = fromBe l₁ * 256 ^ l₂.length + fromBe l₂ := by
  simp only [fromBe, List.foldl_append]
  rw [fromBe_base]
  rfl

theorem fromBe_beBytes (k n : Nat) (h : n < 256 ^ k) : fromBe (beBytes k n) = n := by
  induction k generalizing n with
  | zero =>
    interval_cases n
    simp [beBytes, fromBe]
  | succ k ih =>
    have hdiv : n / 256 < 256 ^ k := by
      apply Nat.div_lt_of_lt_mul
      have hp : (256 : Nat) ^ (k + 1) = 256 * 256 ^ k := by ring
      omega
    simp only [beBytes, fromBe_append]
    rw [ih _ hdiv]
    simp [fromBe]
    omega

theorem beBytes_injOn (k a b : Nat) (ha : a < 256 ^ k) (hb : b < 256 ^ k)
    (h : beBytes k a = beBytes k b) : a = b := by
  have := fromBe_beBytes k a ha
  have := fromBe_beBytes k b hb
  rw [h] at *
  omega

theorem beBytes_lt_256 (k n : Nat) : ∀ b ∈ beBytes k n, b < 256 := by
  induction k generalizing n with
  | zero => simp [beBytes]
  | succ k ih =>
    intro b hb
    simp only [beBytes, List.mem_append, List.mem_singleton] at hb
    rcases hb with hb | hb
    · exact ih _ _ hb
    · omega

/-- Strict lexicographic order on byte strings — the order of the rocksdb
key space. -/
def bytesLt : Bytes → Bytes → Bool
  | [], [] => false
  | [], _ :: _ => true
  | _ :: _, [] => false
  | a :: as, b :: bs => a < b || (a == b && bytesLt as bs)

theorem bytesLt_irrefl (l : Bytes) : bytesLt l l = false := by
  induction l with
  | nil => rfl
  | cons a as ih => simp [bytesLt, ih]

theorem bytesLt_trans {a b c : Bytes} (h₁ : bytesLt a b = true) (h₂ : bytesLt b c = true) :
    bytesLt a c = true := by
  induction a generalizing b c with
  | nil =>
    cases b with
    | nil => simp [bytesLt] at h₁
    | cons y ys =>
      cases c with
      | nil => simp [bytesLt] at h₂
      | cons z zs => simp [bytesLt]
  | cons x xs ih =>
    cases b with
    | nil => simp [bytesLt] at h₁
    | cons y ys =>
      cases c with
      | nil => simp [bytesLt] at h₂
      | cons z zs =>
        simp only [bytesLt, Bool.or_eq_true, decide_eq_true_eq, Bool.and_eq_true,
          beq_iff_eq] at h₁ h₂ ⊢
        rcases h₁ with h₁ | ⟨rfl, h₁⟩
        · rcases h₂ with h₂ | ⟨rfl, _⟩
          · exact Or.inl (by omega)
          · exact Or.inl h₁
        · rcases h₂ with h₂ | ⟨rfl, h₂⟩
          · exact Or.inl h₂
          · exact Or.inr ⟨rfl, ih h₁ h₂⟩

theorem bytesLt_total (a b : Bytes) :
    bytesLt a b = true ∨ a = b ∨ bytesLt b a = true := by
  induction a generalizing b with
  | nil =>
    cases b with
    | nil => exact Or.inr (Or.inl rfl)
    | cons y ys => exact Or.inl (by simp [bytesLt])
  | cons x xs ih =>
    cases b with
    | nil => exact Or.inr (Or.inr (by simp [bytesLt]))
    | cons y ys =>
      rcases Nat.lt_trichotomy x y with h | h | h
      · exact Or.inl (by simp [bytesLt, h])
      · subst h
        rcases ih ys with h' | h' | h'
        · exact Or.inl (by simp [bytesLt, h'])
        · exact Or.inr (Or.inl (by simp [h']))
        · exact Or.inr (Or.inr (by simp [bytesLt, h']))
      · exact Or.inr (Or.inr (by simp [bytesLt, h]))

theorem bytesLt_asymm {a b : Bytes} (h : bytesLt a b = true) : bytesLt b a = false := by
  by_contra hc
  have hba : bytesLt b a = true := by
    cases hh : bytesLt b a with
    | false => exact absurd hh hc
    | true => rfl
  have := bytesLt_trans h hba
  rw [bytesLt_irrefl] at this
  exact Bool.false_ne_true this

theorem bytesLt_append_iff (p a b : Bytes) :
    bytesLt (p ++ a) (p ++ b) = bytesLt a b := by
  induction p with
  | nil => rfl
  | cons x xs ih => simp [bytesLt, ih]

/-- A strictly smaller block of equal length forces lex order whatever follows. -/
theorem bytesLt_append_of_lt {l₁ l₂ : Bytes} (s₁ s₂ : Bytes)
    (hlen : l₁.length = l₂.length) (h : bytesLt l₁ l₂ = true) :
    bytesLt (l₁ ++ s₁) (l₂ ++ s₂) = true := by
  induction l₁ generalizing l₂ with
  | nil =>
    cases l₂ with
    | nil => simp [bytesLt] at h
    | cons y ys => simp at hlen
  | cons x xs ih =>
    cases l₂ with
    | nil => simp at hlen
    | cons y ys =>
      simp only [bytesLt, Bool.or_eq_true, decide_eq_true_eq, Bool.and_eq_true,
        beq_iff_eq, List.cons_append] at h ⊢
      rcases h with h | ⟨rfl, h⟩
      · exact Or.inl h
      · exact Or.inr ⟨rfl, ih (by simpa using hlen) h⟩

/-- Decompose lex order over equal-length leading blocks. -/
theorem bytesLt_append_elim {l₁ l₂ s₁ s₂ : Bytes}
    (hlen : l₁.length = l₂.length) (h : bytesLt (l₁ ++ s₁) (l₂ ++ s₂) = true) :
    bytesLt l₁ l₂ = true ∨ (l₁ = l₂ ∧ bytesLt s₁ s₂ = true) := by
  induction l₁ generalizing l₂ with
  | nil =>
    cases l₂ with
    | nil => exact Or.inr ⟨rfl, by simpa using h⟩
    | cons y ys => simp at hlen
  | cons x xs ih =>
    cases l₂ with
    | nil => simp at hlen
    | cons y ys =>
      simp only [List.cons_append, bytesLt, Bool.or_eq_true, decide_eq_true_eq,
        Bool.and_eq_true, beq_iff_eq] at h ⊢
      rcases h with h | ⟨rfl, h⟩
      · exact Or.inl (Or.inl h)
      · rcases ih (by simpa using hlen) h with h' | ⟨rfl, h'⟩
        · exact Or.inl (Or.inr ⟨rfl, h'⟩)
        · exact Or.inr ⟨rfl, h'⟩

/-- On equal-length big-endian encodings, the byte order agrees with the
numeric order. -/
theorem bytesLt_beBytes (k a b : Nat) (ha : a < 256 ^ k) (hb : b < 256 ^ k) :
    bytesLt (beBytes k a) (beBytes k b) = decide (a < b) := by
  induction k generalizing a b with
  | zero =>
    interval_cases a
    interval_cases b
    simp [beBytes, bytesLt]
  | succ k ih =>
    have ha' : a / 256 < 256 ^ k := by
      apply Nat.div_lt_of_lt_mul
      have hp : (256 : Nat) ^ (k + 1) = 256 * 256 ^ k := by ring
      omega
    have hb' : b / 256 < 256 ^ k := by
      apply Nat.div_lt_of_lt_mul
      have hp : (256 : Nat) ^ (k + 1) = 256 * 256 ^ k := by ring
      omega
    have hlen : (beBytes k (a / 256)).length = (beBytes k (b / 256)).length := by simp
    rcases Nat.lt_trichotomy (a / 256) (b / 256) with h | h | h
    · have hab : a < b := by omega
      have hlt : bytesLt (beBytes k (a / 256)) (beBytes k (b / 256)) = true := by
        rw [ih _ _ ha' hb']
        simpa using h
      simp only [beBytes]
      rw [bytesLt_append_of_lt _ _ hlen hlt, show decide (a < b) = true by simpa using hab]
    · have hfix : beBytes k (a / 256) = beBytes k (b / 256) := by rw [h]
      simp only [beBytes, hfix, bytesLt_append_iff]
      have hiff : a % 256 < b % 256 ↔ a < b := by omega
      simp only [bytesLt, Bool.or_eq_true, Bool.and_eq_true]
      by_cases hab : a < b
      · simp [hiff.mpr hab, hab]
      · have h1 : ¬ a % 256 < b % 256 := fun hc => hab (hiff.mp hc)
        simp [h1, hab]
    · have hab : ¬ a < b := by omega
      have hlt : bytesLt (beBytes k (b / 256)) (beBytes k (a / 256)) = true := by
        rw [ih _ _ hb' ha']
        simpa using h
      have hne : beBytes k (a / 256) ≠ beBytes k (b / 256) := by
        intro hcontra
        rw [hcontra, bytesLt_irrefl] at hlt
        exact Bool.false_ne_true hlt
      rw [show decide (a < b) = false by simpa using hab]
      simp only [beBytes]
      cases hcase : bytesLt (beBytes k (a / 256) ++ [a % 256]) (beBytes k (b / 256) ++ [b % 256]) with
      | false => rfl
      | true =>
        exfalso
        rcases bytesLt_append_elim hlen hcase with h' | ⟨h', _⟩
        · rw [bytesLt_asymm h'] at hlt
          exact Bool.false_ne_true hlt
        · exact hne h'

/-! ## The ordered key-value engine

Modelled from the spec (§6.1): the rocksdb engine consumed by the
metastore provides atomic batched writes, point gets and prefix scans over
an ordered key space.  A database is an association list sorted strictly
by `bytesLt` on keys; `dbPrefixScan` models `DB::prefix_iterator` with the
13-byte fixed-prefix extractor installed by `RocksMetaStore::
with_listener_impl` (`set_prefix_extractor(create_fixed_prefix(13))`):
the scan yields, in key order, exactly the entries whose key starts with
the requested 13-byte seek prefix. -/

abbrev Db := List (Bytes × Bytes)

/-- Point get. -/
def dbGet (db : Db) (k : Bytes) : Option Bytes :=
  (db.find? (fun kv => kv.1 == k)).map (·.2)

/-- Insert or overwrite, keeping the list sorted by key. -/
def dbPut (db : Db) (k v : Bytes) : Db :=
  match db with
  | [] => [(k, v)]
  | (k', v') :: rest =>
    if bytesLt k k' then (k, v) :: (k', v') :: rest
    else if k = k' then (k, v) :: rest
    else (k', v') :: dbPut rest k v

/-- Delete a key. -/
def dbDelete (db : Db) (k : Bytes) : Db :=
  db.filter (fun kv => kv.1 ≠ k)

/-- Prefix scan (see the module comment above). -/
def dbPrefixScan (db : Db) (p : Bytes) : List (Bytes × Bytes) :=
  db.filter (fun kv => p.isPrefixOf kv.1)

/-- Sortedness invariant of the key space. -/
def DbSorted (db : Db) : Prop :=
  db.Pairwise (fun a b => bytesLt a.1 b.1 = true)

theorem dbPut_cons_lt {k k' : Bytes} (v v' : Bytes) (rest : Db) (h : bytesLt k k' = true) :
    dbPut ((k', v') :: rest) k v = (k, v) :: (k', v') :: rest := by
  simp [dbPut, h]

theorem dbPut_cons_eq {k k' : Bytes} (v v' : Bytes) (rest : Db) (h1 : bytesLt k k' = false)
    (h2 : k = k') : dbPut ((k', v') :: rest) k v = (k, v) :: rest := by
  subst h2
  simp [dbPut, h1]

theorem dbPut_cons_gt {k k' : Bytes} (v v' : Bytes) (rest : Db) (h1 : bytesLt k k' = false)
    (h2 : k ≠ k') : dbPut ((k', v') :: rest) k v = (k', v') :: dbPut rest k v := by
  simp [dbPut, h1, h2]

theorem dbGet_cons (k' v' : Bytes) (rest : Db) (k : Bytes) :
    dbGet ((k', v') :: rest) k = if k' = k then some v' else dbGet rest k := by
  by_cases h : k' = k
  · simp [dbGet, List.find?, h]
  · have hb : (k' == k) = false := by simpa using h
    simp [dbGet, List.find?, hb, h]

theorem dbDelete_cons (k' v' : Bytes) (rest : Db) (k : Bytes) :
    dbDelete ((k', v') :: rest) k =
      if k' = k then dbDelete rest k else (k', v') :: dbDelete rest k := by
  by_cases h : k' = k <;> simp [dbDelete, List.filter_cons, h]

theorem dbGet_eq_none (db : Db) (k : Bytes) (h : ∀ kv ∈ db, kv.1 ≠ k) :
    dbGet db k = none := by
  simp only [dbGet, Option.map_eq_none', List.find?_eq_none, beq_iff_eq]
  intro kv hkv
  exact h kv hkv

theorem dbGet_put_self (db : Db) (k v : Bytes) : dbGet (dbPut db k v) k = some v := by
  induction db with
  | nil => simp [dbPut, dbGet, List.find?]
  | cons kv rest ih =>
    obtain ⟨k', v'⟩ := kv
    cases h1 : bytesLt k k' with
    | true => rw [dbPut_cons_lt _ _ _ h1, dbGet_cons, if_pos rfl]
    | false =>
      by_cases h2 : k = k'
      · rw [dbPut_cons_eq _ _ _ h1 h2, dbGet_cons, if_pos rfl]
      · rw [dbPut_cons_gt _ _ _ h1 h2, dbGet_cons, if_neg (fun hc => h2 hc.symm)]
        exact ih

theorem dbGet_put_other (db : Db) (k v k' : Bytes) (h : k' ≠ k) :
    dbGet (dbPut db k v) k' = dbGet db k' := by
  induction db with
  | nil =>
    simp only [dbPut]
    rw [dbGet_cons, if_neg (fun hc => h hc.symm)]
  | cons kv rest ih =>
    obtain ⟨k₀, v₀⟩ := kv
    cases h1 : bytesLt k k₀ with
    | true =>
      rw [dbPut_cons_lt _ _ _ h1, dbGet_cons, if_neg (fun hc => h hc.symm)]
    | false =>
      by_cases h2 : k = k₀
      · rw [dbPut_cons_eq _ _ _ h1 h2, dbGet_cons, if_neg (fun hc => h hc.symm),
          dbGet_cons, if_neg (fun hc => h (by rw [← hc, ← h2]))]
      · rw [dbPut_cons_gt _ _ _ h1 h2, dbGet_cons, dbGet_cons, ih]

theorem dbGet_delete_self (db : Db) (k : Bytes) : dbGet (dbDelete db k) k = none := by
  apply dbGet_eq_none
  intro kv hkv
  simp only [dbDelete, List.mem_filter, ne_eq, decide_not, Bool.not_eq_true',
    decide_eq_false_iff_not] at hkv
  exact hkv.2

theorem dbGet_delete_other (db : Db) (k k' : Bytes) (h : k' ≠ k) :
    dbGet (dbDelete db k) k' = dbGet db k' := by
  induction db with
  | nil => rfl
  | cons kv rest ih =>
    obtain ⟨k₀, v₀⟩ := kv
    rw [dbDelete_cons]
    by_cases h2 : k₀ = k
    · rw [if_pos h2, ih, dbGet_cons, if_neg (fun hc => h (by rw [← hc, h2]))]
    · rw [if_neg h2, dbGet_cons, dbGet_cons, ih]

theorem dbPut_mem (db : Db) (k v : Bytes) : (k, v) ∈ dbPut db k v := by
  induction db with
  | nil => simp [dbPut]
  | cons kv rest ih =>
    obtain ⟨k', v'⟩ := kv
    cases h1 : bytesLt k k' with
    | true =>
      rw [dbPut_cons_lt _ _ _ h1]
      exact List.mem_cons_self _ _
    | false =>
      by_cases h2 : k = k'
      · rw [dbPut_cons_eq _ _ _ h1 h2]
        exact List.mem_cons_self _ _
      · rw [dbPut_cons_gt _ _ _ h1 h2]
        exact List.mem_cons_of_mem _ ih

theorem dbPut_mem_of_mem (db : Db) (k v : Bytes) {kv : Bytes × Bytes}
    (hm : kv ∈ db) (hne : kv.1 ≠ k) : kv ∈ dbPut db k v := by
  induction db with
  | nil => simp at hm
  | cons kv' rest ih =>
    obtain ⟨k', v'⟩ := kv'
    cases h1 : bytesLt k k' with
    | true =>
      rw [dbPut_cons_lt _ _ _ h1]
      exact List.mem_cons_of_mem _ hm
    | false =>
      by_cases h2 : k = k'
      · rw [dbPut_cons_eq _ _ _ h1 h2]
        rcases List.mem_cons.mp hm with h | h
        · exfalso
          apply hne
          rw [h, ← h2]
        · exact List.mem_cons_of_mem _ h
      · rw [dbPut_cons_gt _ _ _ h1 h2]
        rcases List.mem_cons.mp hm with h | h
        · rw [h]
          exact List.mem_cons_self _ _
        · exact List.mem_cons_of_mem _ (ih h)

theorem dbPut_mem_elim (db : Db) (k v : Bytes) {kv : Bytes × Bytes}
    (hm : kv ∈ dbPut db k v) : kv = (k, v) ∨ kv ∈ db := by
  induction db with
  | nil =>
    simp only [dbPut, List.mem_singleton] at hm
    exact Or.inl hm
  | cons kv' rest ih =>
    obtain ⟨k', v'⟩ := kv'
    cases h1 : bytesLt k k' with
    | true =>
      rw [dbPut_cons_lt _ _ _ h1] at hm
      rcases List.mem_cons.mp hm with h | h
      · exact Or.inl h
      · exact Or.inr h
    | false =>
      by_cases h2 : k = k'
      · rw [dbPut_cons_eq _ _ _ h1 h2] at hm
        rcases List.mem_cons.mp hm with h | h
        · exact Or.inl h
        · exact Or.inr (List.mem_cons_of_mem _ h)
      · rw [dbPut_cons_gt _ _ _ h1 h2] at hm
        rcases List.mem_cons.mp hm with h | h
        · rw [h] at hm ⊢
          exact Or.inr (List.mem_cons_self _ _)
        · rcases ih h with h' | h'
          · exact Or.inl h'
          · exact Or.inr (List.mem_cons_of_mem _ h')

theorem dbDelete_mem_elim (db : Db) (k : Bytes) {kv : Bytes × Bytes}
    (hm : kv ∈ dbDelete db k) : kv ∈ db ∧ kv.1 ≠ k := by
  simp only [dbDelete, List.mem_filter, ne_eq, decide_not, Bool.not_eq_true',
    decide_eq_false_iff_not] at hm
  exact ⟨hm.1, hm.2⟩

theorem dbDelete_mem_of_mem (db : Db) (k : Bytes) {kv : Bytes × Bytes}
    (hm : kv ∈ db) (hne : kv.1 ≠ k) : kv ∈ dbDelete db k := by
  simp only [dbDelete, List.mem_filter, ne_eq, decide_not, Bool.not_eq_true',
    decide_eq_false_iff_not]
  exact ⟨hm, hne⟩

theorem dbPut_sorted {db : Db} (hs : DbSorted db) (k v : Bytes) :
    DbSorted (dbPut db k v) := by
  induction db with
  | nil =>
    simp only [dbPut, DbSorted]
    exact List.pairwise_singleton _ _
  | cons kv rest ih =>
    obtain ⟨k', v'⟩ := kv
    rw [DbSorted, List.pairwise_cons] at hs
    obtain ⟨hhead, htail⟩ := hs
    cases h1 : bytesLt k k' with
    | true =>
      rw [dbPut_cons_lt _ _ _ h1]
      refine List.Pairwise.cons ?_ (List.Pairwise.cons hhead htail)
      intro kv₂ hm
      rcases List.mem_cons.mp hm with h | h
      · rw [h]
        exact h1
      · exact bytesLt_trans h1 (hhead _ h)
    | false =>
      by_cases h2 : k = k'
      · rw [dbPut_cons_eq _ _ _ h1 h2]
        refine List.Pairwise.cons ?_ htail
        intro kv₂ hm
        rw [h2]
        exact hhead _ hm
      · rw [dbPut_cons_gt _ _ _ h1 h2]
        refine List.Pairwise.cons ?_ (ih htail)
        intro kv₂ hm
        rcases dbPut_mem_elim _ _ _ hm with h | h
        · rw [h]
          rcases bytesLt_total k' k with h' | h' | h'
          · exact h'
          · exact absurd h'.symm h2
          · rw [h'] at h1
            exact absurd h1 (by simp)
        · exact hhead _ h

theorem dbDelete_sorted {db : Db} (hs : DbSorted db) (k : Bytes) :
    DbSorted (dbDelete db k) :=
  List.Pairwise.filter _ hs

/-! ## The key codec (`RowKey`, `TableId`) -/

/-- Well-known per-entity primary-table ids (`enum TableId` in the source). -/
inductive TableId
  | Schemas
  | Tables
  | Indexes
  | Partitions
  | Chunks
  | WALs
  | Jobs
deriving DecidableEq, Repr

/-- The numeric discriminators of `TableId` (`Schemas = 0x0100`, ...). -/
def TableId.toNat : TableId → Nat
  | .Schemas => 0x0100
  | .Tables => 0x0200
  | .Indexes => 0x0300
  | .Partitions => 0x0400
  | .Chunks => 0x0500
  | .WALs => 0x0600
  | .Jobs => 0x0700

/-- `From<u32> for TableId` generated by `enum_from_primitive!`; the Rust
code panics on an unknown discriminator, modelled as `none`. -/
def TableId.fromNat? (n : Nat) : Option TableId :=
  if n = 0x0100 then some .Schemas
  else if n = 0x0200 then some .Tables
  else if n = 0x0300 then some .Indexes
  else if n = 0x0400 then some .Partitions
  else if n = 0x0500 then some .Chunks
  else if n = 0x0600 then some .WALs
  else if n = 0x0700 then some .Jobs
  else none

theorem TableId.fromNat?_toNat (t : TableId) : TableId.fromNat? t.toNat = some t := by
  cases t <;> rfl

theorem TableId.toNat_lt (t : TableId) : t.toNat < 2 ^ 32 := by
  cases t <;> norm_num [TableId.toNat]

/-- `RowKey`: a primary row, a sequence counter, or a secondary-index entry. -/
inductive RowKey
  | Table (tid : TableId) (rowId : Nat)
  | Sequence (tid : TableId)
  | SecondaryIndex (indexId : Nat) (secondaryKey : Bytes) (rowId : Nat)
deriving DecidableEq, Repr

/-- `RowKey::to_bytes`: `1 | table_id u32 BE | 0 u64 BE | row_id u64 BE`,
`2 | table_id u32 BE`, or `3 | index_id u32 BE | secondary_key | row_id u64 BE`. -/
def RowKey.toBytes : RowKey → Bytes
  | .Table tid rowId => 1 :: (beBytes 4 tid.toNat ++ beBytes 8 0 ++ beBytes 8 rowId)
  | .Sequence tid => 2 :: beBytes 4 tid.toNat
  | .SecondaryIndex indexId secondaryKey rowId =>
      3 :: (beBytes 4 indexId ++ secondaryKey ++ beBytes 8 rowId)

/-- `RowKey::from_bytes`: dispatch on the first byte; the reserved-padding
u64 of a primary key is read and discarded; a secondary key spans
`bytes.len() - 13` bytes.  Rust panics on an unknown first byte or a
short buffer; both are modelled as `none`. -/
def RowKey.fromBytes? : Bytes → Option RowKey
  | 1 :: rest =>
      if 20 ≤ rest.length then
        match TableId.fromNat? (fromBe (rest.take 4)) with
        | some tid => some (.Table tid (fromBe ((rest.drop 12).take 8)))
        | none => none
      else none
  | 2 :: rest =>
      if 4 ≤ rest.length then
        (TableId.fromNat? (fromBe (rest.take 4))).map .Sequence
      else none
  | 3 :: rest =>
      if 12 ≤ rest.length then
        some (.SecondaryIndex (fromBe (rest.take 4))
          ((rest.drop 4).take (rest.length - 12))
          (fromBe (rest.drop (rest.length - 8))))
      else none
  | _ => none

/-- Fields are in the range of their Rust machine-integer types. -/
def RowKey.wf : RowKey → Prop
  | .Table _ rowId => rowId < 2 ^ 64
  | .Sequence _ => True
  | .SecondaryIndex indexId _ rowId => indexId < 2 ^ 32 ∧ rowId < 2 ^ 64

theorem pow256_four : (256 : Nat) ^ 4 = 2 ^ 32 := by norm_num

theorem pow256_eight : (256 : Nat) ^ 8 = 2 ^ 64 := by norm_num

theorem take_append_len {α : Type} (l₁ l₂ : List α) (n : Nat) (h : l₁.length = n) :
    (l₁ ++ l₂).take n = l₁ := by
  subst h
  exact List.take_left l₁ l₂

theorem drop_append_len {α : Type} (l₁ l₂ : List α) (n : Nat) (h : l₁.length = n) :
    (l₁ ++ l₂).drop n = l₂ := by
  subst h
  exact List.drop_left l₁ l₂

/-- **C3.** For every well-formed `RowKey` value `k` of any of the three
variants, decoding the bytes produced by encoding it returns `k`:
`RowKey::from_bytes(k.to_bytes()) = k`. -/
theorem rowKey_from_bytes_to_bytes (k : RowKey) (h : RowKey.wf k) :
    RowKey.fromBytes? k.toBytes = some k := by
  cases k with
  | Table tid rowId =>
    simp only [RowKey.wf] at h
    simp only [RowKey.toBytes, RowKey.fromBytes?, List.append_assoc]
    rw [if_pos (by simp)]
    rw [take_append_len _ _ 4 (by simp), fromBe_beBytes 4 _
      (by rw [pow256_four]; exact tid.toNat_lt), TableId.fromNat?_toNat]
    rw [show (12 : Nat) = 4 + 8 from rfl, ← List.drop_drop,
      drop_append_len (beBytes 4 tid.toNat) _ 4 (by simp),
      drop_append_len (beBytes 8 0) _ 8 (by simp)]
    rw [List.take_of_length_le (by simp), fromBe_beBytes 8 _ (by rw [pow256_eight]; exact h)]
  | Sequence tid =>
    simp only [RowKey.toBytes, RowKey.fromBytes?]
    rw [if_pos (by simp)]
    rw [List.take_of_length_le (by simp),
      fromBe_beBytes 4 _ (by rw [pow256_four]; exact tid.toNat_lt),
      TableId.fromNat?_toNat]
    rfl
  | SecondaryIndex indexId secondaryKey rowId =>
    simp only [RowKey.wf] at h
    simp only [RowKey.toBytes, RowKey.fromBytes?, List.append_assoc]
    rw [if_pos (by simp only [List.length_append, beBytes_length]; omega)]
    rw [take_append_len _ _ 4 (by simp),
      fromBe_beBytes 4 _ (by rw [pow256_four]; exact h.1)]
    rw [drop_append_len (beBytes 4 indexId) _ 4 (by simp)]
    have h1 : (beBytes 4 indexId ++ (secondaryKey ++ beBytes 8 rowId)).length - 12 =
        secondaryKey.length := by
      simp only [List.length_append, beBytes_length]
      omega
    rw [h1, take_append_len _ _ secondaryKey.length rfl]
    have h2 : (beBytes 4 indexId ++ (secondaryKey ++ beBytes 8 rowId)).length - 8 =
        4 + secondaryKey.length := by
      simp only [List.length_append, beBytes_length]
      omega
    rw [h2, ← List.drop_drop, drop_append_len (beBytes 4 indexId) _ 4 (by simp),
      drop_append_len secondaryKey _ secondaryKey.length rfl,
      fromBe_beBytes 8 _ (by rw [pow256_eight]; exact h.2)]

/-! ## Errors, events, batch pipe -/

/-- `CubeError`, restricted to the two constructors this module uses
(`CubeError::user`, `CubeError::internal`). -/
inductive CubeErr
  | user (msg : String)
  | internal (msg : String)
deriving DecidableEq, Repr

/-- `MetaStoreEvent`.  The per-entity `Delete<Kind>(IdRow)` events
(`DeleteSchema`, `DeleteChunk`, ...) are represented uniformly by
`deleteTyped` carrying the table id and row id of the deleted row. -/
inductive MetaStoreEvent
  | insert (t : TableId) (id : Nat)
  | update (t : TableId) (id : Nat)
  | delete (t : TableId) (id : Nat)
  | deleteTyped (t : TableId) (id : Nat)
deriving DecidableEq, Repr

/-- `IdRow<T>`: the pairing of a row id and a row body. -/
structure IdRow (T : Type) where
  id : Nat
  row : T
deriving DecidableEq, Repr

/-- A staged rocksdb write-batch operation. -/
inductive BatchEntry
  | put (key value : Bytes)
  | del (key : Bytes)
deriving DecidableEq, Repr

/-- `BatchPipe`: the staged write batch plus the ordered event list
accumulated while a write closure runs. -/
structure BatchPipe where
  batch : List BatchEntry
  events : List MetaStoreEvent
deriving DecidableEq, Repr

def BatchPipe.empty : BatchPipe := ⟨[], []⟩

/-- `batch().put(key, val)`. -/
def BatchPipe.stagePut (pipe : BatchPipe) (key value : Bytes) : BatchPipe :=
  { pipe with batch := pipe.batch ++ [.put key value] }

/-- `batch().delete(key)`. -/
def BatchPipe.stageDelete (pipe : BatchPipe) (key : Bytes) : BatchPipe :=
  { pipe with batch := pipe.batch ++ [.del key] }

/-- `add_event`. -/
def BatchPipe.addEvent (pipe : BatchPipe) (e : MetaStoreEvent) : BatchPipe :=
  { pipe with events := pipe.events ++ [e] }

/-- `db.write(write_batch)`: apply a staged batch atomically, in order. -/
def applyBatch (db : Db) : List BatchEntry → Db
  | [] => db
  | .put k v :: rest => applyBatch (dbPut db k v) rest
  | .del k :: rest => applyBatch (dbDelete db k) rest

/-! ## The generic table engine (`RocksTable`)

A `TableSpec T` collects what a `RocksTable` implementation provides for
an entity type `T`: the table id, the row codec (the source serializes
rows with flexbuffers through `serde`, which is external to this module;
it is modelled from the spec §4.B as an abstract per-entity codec whose
round-trip property is an explicit hypothesis), the declared secondary
indexes (`indexes()`: stable local id, encoded key extractor
`index_key_by`, uniqueness flag) and the 64-bit byte-string hash
(`DefaultHasher`, also external; modelled as an abstract function whose
`finish()` result is a `u64`). -/

structure SecondaryIndexSpec (T : Type) where
  localId : Nat
  keyBy : T → Bytes
  unique : Bool

structure TableSpec (T : Type) where
  tableId : TableId
  ser : T → Bytes
  deser : Bytes → Option T
  indexes : List (SecondaryIndexSpec T)
  hashBytes : Bytes → Nat

/-- The codec round-trips (spec §4.B: the row codec is symmetric per entity). -/
def TableSpec.SerInv {T : Type} (spec : TableSpec T) : Prop :=
  ∀ t : T, spec.deser (spec.ser t) = some t

/-- Declared indexes carry local numbers ≤ 99 (the `index_id` guard panics
otherwise) and pairwise distinct local ids. -/
def TableSpec.WF {T : Type} (spec : TableSpec T) : Prop :=
  (∀ ix ∈ spec.indexes, ix.localId ≤ 99) ∧
    spec.indexes.Pairwise (fun a b => a.localId ≠ b.localId)

/-- `hash_bytes(...).finish()` is a `u64`. -/
def hash64 {T : Type} (spec : TableSpec T) (bs : Bytes) : Nat :=
  spec.hashBytes bs % 2 ^ 64

/-- `index_id(index_num) = table_id as IndexId + index_num` (guarded by
`TableSpec.WF` in place of the `index_num > 99` panic). -/
def indexIdOf {T : Type} (spec : TableSpec T) (n : Nat) : Nat :=
  spec.tableId.toNat + n

def seqKey {T : Type} (spec : TableSpec T) : Bytes :=
  (RowKey.Sequence spec.tableId).toBytes

def primaryKey {T : Type} (spec : TableSpec T) (rowId : Nat) : Bytes :=
  (RowKey.Table spec.tableId rowId).toBytes

/-- The key of a stored secondary-index entry:
`3 | index_id | hash u64 BE | row_id`. -/
def indexEntryKey {T : Type} (spec : TableSpec T) (ix : SecondaryIndexSpec T)
    (hash rowId : Nat) : Bytes :=
  (RowKey.SecondaryIndex (indexIdOf spec ix.localId) (beBytes 8 hash) rowId).toBytes

/-- Truncating element-wise comparison,
`xs.iter().zip(ys).all(|(a, b)| a == b)`. -/
def zipAllEq (xs ys : Bytes) : Bool :=
  (xs.zip ys).all fun p => p.1 == p.2

/-- The body of the scan loop of `get_row_from_index`: walk the prefix
iterator, `break` at the first entry whose decoded hash differs from the
probed one, `continue` past entries whose stored value differs from the
probed encoded key, and collect the row ids of the rest. -/
def collectIndexRowIds (secondaryKeyVal secondaryKeyHash : Bytes) :
    List (Bytes × Bytes) → List Nat
  | [] => []
  | (key, value) :: rest =>
    match RowKey.fromBytes? key with
    | some (.SecondaryIndex _ secondaryIndexHash rowId) =>
      if ¬ zipAllEq secondaryIndexHash secondaryKeyHash then []
      else if secondaryKeyVal.length ≠ value.length ∨ ¬ zipAllEq value secondaryKeyVal then
        collectIndexRowIds secondaryKeyVal secondaryKeyHash rest
      else rowId :: collectIndexRowIds secondaryKeyVal secondaryKeyHash rest
    | _ => collectIndexRowIds secondaryKeyVal secondaryKeyHash rest

/-- `get_row_from_index`: seek the prefix iterator to
`3 | index_id | hash` (the first `key_len + 5` bytes of the minimal key)
and run the scan loop. -/
def getRowFromIndex {T : Type} (spec : TableSpec T) (db : Db) (secondaryId : Nat)
    (secondaryKeyVal secondaryKeyHash : Bytes) : List Nat :=
  let keyMin := RowKey.SecondaryIndex (indexIdOf spec secondaryId) secondaryKeyHash 0
  collectIndexRowIds secondaryKeyVal secondaryKeyHash
    (dbPrefixScan db (keyMin.toBytes.take (secondaryKeyHash.length + 5)))

/-- The unique-constraint probe at the head of `insert`: for every
declared index, hash the row's encoded key, look the hash up in the
committed store, and reject when a unique index already has a match. -/
def checkUniqueIndexes {T : Type} (spec : TableSpec T) (db : Db) (row : T) :
    List (SecondaryIndexSpec T) → Except CubeErr Unit
  | [] => .ok ()
  | ix :: rest =>
    let hash := hash64 spec (ix.keyBy row)
    let existingKeys := getRowFromIndex spec db ix.localId (ix.keyBy row) (beBytes 8 hash)
    if ix.unique && decide (existingKeys.length > 0) then
      .error (.user "Unique constraint violation")
    else checkUniqueIndexes spec db row rest

/-- `next_table_seq`: read the counter at `RowKey::Sequence(table_id)`
(0 when absent), increment, and `db.put` the new value immediately —
this is a direct write to the engine, not a staged batch operation.
(Rust panics when a stored counter value is shorter than 8 bytes; stored
counters are always exactly 8 bytes.) -/
def nextTableSeq {T : Type} (spec : TableSpec T) (db : Db) : Nat × Db :=
  let currentSeq : Nat :=
    match dbGet db (seqKey spec) with
    | some v => fromBe (v.take 8)
    | none => 0
  let nextSeq := currentSeq + 1
  (nextSeq, dbPut db (seqKey spec) (beBytes 8 nextSeq))

/-- `insert_row`: allocate the next id and build the primary `KeyVal`. -/
def insertRowKv {T : Type} (spec : TableSpec T) (db : Db) (row : Bytes) :
    (Nat × Bytes × Bytes) × Db :=
  let (nextSeq, db') := nextTableSeq spec db
  ((nextSeq, (RowKey.Table spec.tableId nextSeq).toBytes, row), db')

/-- `insert_index_row`: one `(key, value)` pair per declared index. -/
def insertIndexRow {T : Type} (spec : TableSpec T) (row : T) (rowId : Nat) :
    List (Bytes × Bytes) :=
  spec.indexes.map fun ix =>
    (indexEntryKey spec ix (hash64 spec (ix.keyBy row)) rowId, ix.keyBy row)

/-- `delete_index_row`: the same keys with empty values. -/
def deleteIndexRow {T : Type} (spec : TableSpec T) (row : T) (rowId : Nat) :
    List (Bytes × Bytes) :=
  spec.indexes.map fun ix =>
    (indexEntryKey spec ix (hash64 spec (ix.keyBy row)) rowId, ([] : Bytes))

/-- `insert`: probe unique indexes against the committed store, allocate
the id (a direct engine write), stage the primary put, the `Insert`
event and the index puts. -/
def insertOp {T : Type} (spec : TableSpec T) (row : T) (db : Db) (pipe : BatchPipe) :
    Except CubeErr (IdRow T) × Db × BatchPipe :=
  match checkUniqueIndexes spec db row spec.indexes with
  | .error e => (.error e, db, pipe)
  | .ok () =>
    let serializedRow := spec.ser row
    let ((rowId, key, val), db') := insertRowKv spec db serializedRow
    let pipe := pipe.addEvent (.insert spec.tableId rowId)
    let pipe := pipe.stagePut key val
    let pipe := (insertIndexRow spec row rowId).foldl (fun p kv => p.stagePut kv.1 kv.2) pipe
    (.ok ⟨rowId, row⟩, db', pipe)

/-- `get_row`: primary point lookup plus row deserialization
(`deserialize_id_row`; a row that fails to decode is a codec error). -/
def getRow {T : Type} (spec : TableSpec T) (db : Db) (rowId : Nat) :
    Except CubeErr (Option (IdRow T)) :=
  match dbGet db (primaryKey spec rowId) with
  | some buffer =>
    match spec.deser buffer with
    | some row => .ok (some ⟨rowId, row⟩)
    | none => .error (.internal "deserialization error")
  | none => .ok none

/-- `get_row_or_not_found`. -/
def getRowOrNotFound {T : Type} (spec : TableSpec T) (db : Db) (rowId : Nat) :
    Except CubeErr (IdRow T) :=
  match getRow spec db rowId with
  | .ok (some row) => .ok row
  | .ok none => .error (.user "Row is not found")
  | .error e => .error e

/-- `delete`: read the row, stage the `Delete` events, the index-entry
deletes and the primary delete, all in the same batch. -/
def deleteOp {T : Type} (spec : TableSpec T) (rowId : Nat) (db : Db) (pipe : BatchPipe) :
    Except CubeErr (IdRow T) × BatchPipe :=
  match getRowOrNotFound spec db rowId with
  | .error e => (.error e, pipe)
  | .ok row =>
    let deletedRow := deleteIndexRow spec row.row rowId
    let pipe := pipe.addEvent (.delete spec.tableId rowId)
    let pipe := pipe.addEvent (.deleteTyped spec.tableId rowId)
    let pipe := deletedRow.foldl (fun p kv => p.stageDelete kv.1) pipe
    let pipe := pipe.stageDelete (primaryKey spec rowId)
    (.ok row, pipe)

/-- `update`: stage deletes of the old index entries, the primary put of
the new row, the `Update` event and the new index entries. -/
def updateOp {T : Type} (spec : TableSpec T) (rowId : Nat) (newRow : T) (oldRow : T)
    (pipe : BatchPipe) : IdRow T × BatchPipe :=
  let deletedRow := deleteIndexRow spec oldRow rowId
  let pipe := deletedRow.foldl (fun p kv => p.stageDelete kv.1) pipe
  let pipe := pipe.addEvent (.update spec.tableId rowId)
  let pipe := pipe.stagePut (primaryKey spec rowId) (spec.ser newRow)
  let pipe := (insertIndexRow spec newRow rowId).foldl (fun p kv => p.stagePut kv.1 kv.2) pipe
  (⟨rowId, newRow⟩, pipe)

/-- `update_with_fn`. -/
def updateWithFn {T : Type} (spec : TableSpec T) (rowId : Nat) (f : T → T) (db : Db)
    (pipe : BatchPipe) : Except CubeErr (IdRow T) × BatchPipe :=
  match getRowOrNotFound spec db rowId with
  | .error e => (.error e, pipe)
  | .ok row =>
    let (idRow, pipe) := updateOp spec rowId (f row.row) row.row pipe
    (.ok idRow, pipe)

/-! ## The transaction coordinator -/

/-- `write_operation`: run the closure under a fresh `BatchPipe`; on
success write the staged batch atomically and surface the staged events;
on failure discard the batch and the events.  The `Db` component of the
closure result carries the direct engine writes the closure performed
(`next_table_seq` commits them immediately), which therefore survive a
failing closure. -/
def writeOperation {R : Type} (db : Db)
    (f : Db → BatchPipe → Except CubeErr R × Db × BatchPipe) :
    Except CubeErr (R × List MetaStoreEvent) × Db :=
  match f db BatchPipe.empty with
  | (.ok r, db', pipe) => (.ok (r, pipe.events), applyBatch db' pipe.batch)
  | (.error e, db', _) => (.error e, db')

/-! ## Concrete instantiations used by witnesses -/

/-- A stand-in row codec for `T = Nat` rows (the real codec is
flexbuffers, external to this module; witnesses may pick any codec
satisfying `SerInv`). -/
def natSer (n : Nat) : Bytes := [n]

def natDeser : Bytes → Option Nat
  | [n] => some n
  | _ => none

theorem natDeser_natSer (n : Nat) : natDeser (natSer n) = some n := rfl

/-- A `Nat`-row table with no secondary indexes. -/
def specNoIndex : TableSpec Nat :=
  { tableId := .Schemas
    ser := natSer
    deser := natDeser
    indexes := []
    hashBytes := fun _ => 0 }

/-! ## C1: `write_operation` failure semantics -/

theorem insertOp_ok_seq {T : Type} (spec : TableSpec T) (row : T) (db : Db) (pipe : BatchPipe)
    {idr : IdRow T} {db₂ : Db} {pipe₂ : BatchPipe}
    (h : insertOp spec row db pipe = (.ok idr, db₂, pipe₂)) :
    dbGet db₂ (seqKey spec) = some (beBytes 8 idr.id) := by
  unfold insertOp at h
  cases hchk : checkUniqueIndexes spec db row spec.indexes with
  | error e =>
    rw [hchk] at h
    simp at h
  | ok u =>
    cases u
    rw [hchk] at h
    simp only [insertRowKv, nextTableSeq, Prod.mk.injEq] at h
    obtain ⟨hres, hdb, -⟩ := h
    rw [Except.ok.injEq] at hres
    rw [← hdb, dbGet_put_self, ← hres]

/-- The closure used by the C1 counterexample: perform one insert and
then fail. -/
def c1FailingClosure : Db → BatchPipe → Except CubeErr (IdRow Nat) × Db × BatchPipe :=
  fun db pipe =>
    let r := insertOp specNoIndex 5 db pipe
    (.error (.user "closure failed"), r.2.1, r.2.2)

/-- **C1 counterexample.**  A `write_operation` whose closure inserts a
row and then returns an error does mutate the key-value store: the
sequence counter put by `next_table_seq` is a direct engine write, not a
staged batch operation, so the store is no longer empty, the counter
records the allocated id 1, and the next insert after the failed
operation allocates id 2 — id 1 has been consumed, contradicting the
claim that no mutations are applied and that ids are not burnt. -/
theorem write_operation_failed_closure_mutates_store :
    (writeOperation ([] : Db) c1FailingClosure).2 ≠ ([] : Db) ∧
    dbGet (writeOperation ([] : Db) c1FailingClosure).2 (seqKey specNoIndex) =
      some (beBytes 8 1) ∧
    (insertOp specNoIndex 6 (writeOperation ([] : Db) c1FailingClosure).2
        BatchPipe.empty).1 = .ok ⟨2, 6⟩ := by
  refine ⟨by decide, by decide, rfl⟩

/-- **C1 (amended).**  For every closure `f` passed to `write_operation`
that returns an error, the staged batch is discarded and no events are
emitted (the result carries no event list and the staged mutations are
not applied); however, writes the closure performed directly against the
engine persist — in particular the sequence increments of
`next_table_seq`, which are immediate `db.put` calls rather than staged
batch operations, so row ids allocated during the failed closure are
consumed. -/
theorem write_operation_failure_keeps_direct_writes {R T : Type} (db : Db)
    (f : Db → BatchPipe → Except CubeErr R × Db × BatchPipe)
    (e : CubeErr) (db' : Db) (pipe' : BatchPipe)
    (hf : f db BatchPipe.empty = (.error e, db', pipe'))
    (spec : TableSpec T) (row : T) (pipe : BatchPipe)
    (idr : IdRow T) (db₂ : Db) (pipe₂ : BatchPipe)
    (hins : insertOp spec row db pipe = (.ok idr, db₂, pipe₂)) :
    writeOperation db f = (.error e, db') ∧
    dbGet db₂ (seqKey spec) = some (beBytes 8 idr.id) := by
  constructor
  · unfold writeOperation
    rw [hf]
  · exact insertOp_ok_seq spec row db pipe hins

theorem write_operation_failure_keeps_direct_writes_witness :
    writeOperation ([] : Db) c1FailingClosure =
      (.error (.user "closure failed"), [(seqKey specNoIndex, beBytes 8 1)]) ∧
    dbGet [(seqKey specNoIndex, beBytes 8 1)] (seqKey specNoIndex) = some (beBytes 8 1) :=
  write_operation_failure_keeps_direct_writes ([] : Db) c1FailingClosure
    (.user "closure failed") [(seqKey specNoIndex, beBytes 8 1)]
    ⟨[.put (primaryKey specNoIndex 1) (natSer 5)], [.insert .Schemas 1]⟩
    rfl specNoIndex 5 BatchPipe.empty ⟨1, 5⟩
    [(seqKey specNoIndex, beBytes 8 1)]
    ⟨[.put (primaryKey specNoIndex 1) (natSer 5)], [.insert .Schemas 1]⟩
    rfl

/-! ## C3 witness -/

theorem rowKey_from_bytes_to_bytes_witness :
    RowKey.fromBytes? (RowKey.Table .Tables 7).toBytes = some (.Table .Tables 7) ∧
    RowKey.fromBytes? (RowKey.Sequence .Chunks).toBytes = some (.Sequence .Chunks) ∧
    RowKey.fromBytes? (RowKey.SecondaryIndex 513 [1, 2, 3] 9).toBytes =
      some (.SecondaryIndex 513 [1, 2, 3] 9) :=
  ⟨rowKey_from_bytes_to_bytes _ (by norm_num [RowKey.wf]),
    rowKey_from_bytes_to_bytes _ trivial,
    rowKey_from_bytes_to_bytes _ (by norm_num [RowKey.wf])⟩

/-! ## Well-formed stores and the index-probe characterization -/

theorem fromBe_lt (l : Bytes) (h : ∀ b ∈ l, b < 256) : fromBe l < 256 ^ l.length := by
  induction l using List.reverseRecOn with
  | nil => simp [fromBe]
  | append_singleton l b ih =>
    rw [fromBe_append]
    have hb : b < 256 := h b (by simp)
    have hl : fromBe l < 256 ^ l.length := ih fun x hx => h x (by simp [hx])
    have h1 : fromBe [b] = b := by simp [fromBe]
    have h2 : (256 : Nat) ^ (l ++ [b]).length = 256 ^ l.length * 256 := by
      simp [pow_succ]
    rw [h1, h2]
    simp only [List.length_singleton, pow_one]
    nlinarith

theorem beBytes_fromBe (l : Bytes) (k : Nat) (hlen : l.length = k) (h : ∀ b ∈ l, b < 256) :
    beBytes k (fromBe l) = l := by
  subst hlen
  induction l using List.reverseRecOn with
  | nil => rfl
  | append_singleton l' b ih =>
    have hb : b < 256 := h b (by simp)
    rw [fromBe_append]
    have h1 : fromBe [b] = b := by simp [fromBe]
    have hlen2 : (l' ++ [b]).length = l'.length + 1 := by simp
    rw [h1, hlen2]
    simp only [beBytes, List.length_singleton, pow_one]
    have hdiv : (fromBe l' * 256 + b) / 256 = fromBe l' := by omega
    have hmod : (fromBe l' * 256 + b) % 256 = b := by omega
    rw [hdiv, hmod, ih fun x hx => h x (by simp [hx])]

theorem zipAllEq_iff_eq (xs ys : Bytes) (h : xs.length = ys.length) :
    zipAllEq xs ys = true ↔ xs = ys := by
  induction xs generalizing ys with
  | nil =>
    cases ys with
    | nil => simp [zipAllEq]
    | cons y ys => simp at h
  | cons x xs ih =>
    cases ys with
    | nil => simp at h
    | cons y ys =>
      have hlen : xs.length = ys.length := by simpa using h
      simp only [zipAllEq, List.zip_cons_cons, List.all_cons, beq_iff_eq, Bool.and_eq_true,
        decide_eq_true_eq]
      constructor
      · rintro ⟨h1, hrest⟩
        have h2 : xs = ys := (ih ys hlen).mp hrest
        rw [h1, h2]
      · intro h'
        injection h' with h1 h2
        exact ⟨h1, (ih ys hlen).mpr h2⟩

theorem zipAllEq_refl (xs : Bytes) : zipAllEq xs xs = true :=
  (zipAllEq_iff_eq xs xs rfl).mpr rfl

/-- Per-entry store invariant: every secondary-index entry carries in its
hash slot exactly the 8-byte big-endian `DefaultHasher` value of its
stored encoded key (which is how `insert_index_row` builds entries). -/
def entryWF {T : Type} (spec : TableSpec T) (k v : Bytes) : Prop :=
  k.head? = some 3 → 13 ≤ k.length →
    (k.drop 5).take (k.length - 13) = beBytes 8 (hash64 spec v)

instance {T : Type} (spec : TableSpec T) (k v : Bytes) : Decidable (entryWF spec k v) := by
  unfold entryWF
  infer_instance

/-- Store well-formedness: all key bytes are bytes, and every
secondary-index entry is hash-consistent. -/
def DbWF {T : Type} (spec : TableSpec T) (db : Db) : Prop :=
  ∀ kv ∈ db, (∀ b ∈ kv.1, b < 256) ∧ entryWF spec kv.1 kv.2

instance {T : Type} (spec : TableSpec T) (db : Db) : Decidable (DbWF spec db) := by
  unfold DbWF
  infer_instance

/-- The 13-byte seek prefix of the probe for `(index_id, hash)`. -/
def probeStart {T : Type} (spec : TableSpec T) (secondaryId : Nat) (H : Bytes) : Bytes :=
  3 :: (beBytes 4 (indexIdOf spec secondaryId) ++ H)

theorem getRowFromIndex_eq_collect {T : Type} (spec : TableSpec T) (db : Db)
    (secondaryId : Nat) (keyVal H : Bytes) (hH : H.length = 8) :
    getRowFromIndex spec db secondaryId keyVal H =
      collectIndexRowIds keyVal H (dbPrefixScan db (probeStart spec secondaryId H)) := by
  unfold getRowFromIndex probeStart
  simp only [RowKey.toBytes]
  rw [hH, show (8 : Nat) + 5 = 12 + 1 from rfl, List.take_succ_cons]
  congr 1
  rw [List.take_append_eq_append_take, List.take_of_length_le (by simp [hH])]
  have h0 : 12 - (beBytes 4 (indexIdOf spec secondaryId) ++ H).length = 0 := by
    simp [hH]
  rw [h0]
  simp

/-- Decoding a well-formed block entry `3 | index_id | H | rid`. -/
theorem fromBytes?_block_entry (iid : Nat) (H t : Bytes) (hH : H.length = 8)
    (ht : t.length = 8) :
    RowKey.fromBytes? ((3 :: (beBytes 4 iid ++ H)) ++ t) =
      some (.SecondaryIndex (fromBe (beBytes 4 iid)) H (fromBe t)) := by
  simp only [List.cons_append, RowKey.fromBytes?, List.append_assoc]
  rw [if_pos (by simp only [List.length_append, beBytes_length, hH, ht]; omega)]
  rw [take_append_len _ _ 4 (by simp)]
  have hlen : (beBytes 4 iid ++ (H ++ t)).length - 12 = 8 := by
    simp only [List.length_append, beBytes_length, hH, ht]
  rw [hlen, drop_append_len (beBytes 4 iid) _ 4 (by simp), take_append_len H t 8 hH]
  have hlen2 : (beBytes 4 iid ++ (H ++ t)).length - 8 = 4 + 8 := by
    simp only [List.length_append, beBytes_length, hH, ht]
  rw [hlen2, ← List.drop_drop, drop_append_len (beBytes 4 iid) _ 4 (by simp),
    drop_append_len H t 8 hH]

/-- A well-formed entry that lies in the probe's 13-byte block decomposes
as `prefix ++ rid`-bytes with an 8-byte rid slot, and its value hashes to
the probed hash. -/
theorem block_entry_shape {T : Type} (spec : TableSpec T) (secondaryId : Nat)
    (H : Bytes) (hH : H.length = 8) (k v : Bytes)
    (hpfx : (probeStart spec secondaryId H).isPrefixOf k = true)
    (hwf : entryWF spec k v) :
    ∃ t : Bytes, k = (probeStart spec secondaryId H) ++ t ∧ t.length = 8 ∧
      H = beBytes 8 (hash64 spec v) := by
  rw [List.isPrefixOf_iff_prefix] at hpfx
  obtain ⟨t, ht⟩ := hpfx
  refine ⟨t, ht.symm, ?_⟩
  have hk5 : k.drop 5 = H ++ t := by
    rw [← ht]
    simp only [probeStart, List.cons_append, List.append_assoc]
    rw [show (5 : Nat) = 4 + 1 from rfl, List.drop_succ_cons]
    exact drop_append_len (beBytes 4 (indexIdOf spec secondaryId)) _ 4 (by simp)
  have hklen : k.length = 13 + t.length := by
    rw [← ht]
    simp only [probeStart, List.cons_append, List.length_cons, List.length_append,
      beBytes_length, hH]
    omega
  have hwf' := hwf (by rw [← ht]; rfl) (by omega)
  rw [hk5, hklen, show 13 + t.length - 13 = t.length from by omega] at hwf'
  have htlen : t.length = 8 := by
    have := congrArg List.length hwf'
    simp only [List.length_take, List.length_append, beBytes_length, hH] at this
    omega
  refine ⟨htlen, ?_⟩
  rw [htlen, take_append_len H t 8 hH] at hwf'
  exact hwf'

theorem collectIndexRowIds_cons_sec (keyVal H k v : Bytes) (rest : List (Bytes × Bytes))
    (iid : Nat) (sk : Bytes) (rid : Nat)
    (hdec : RowKey.fromBytes? k = some (.SecondaryIndex iid sk rid)) :
    collectIndexRowIds keyVal H ((k, v) :: rest) =
      if ¬ zipAllEq sk H then []
      else if keyVal.length ≠ v.length ∨ ¬ zipAllEq v keyVal then
        collectIndexRowIds keyVal H rest
      else rid :: collectIndexRowIds keyVal H rest := by
  simp only [collectIndexRowIds, hdec]

/-- The value check of the scan loop succeeds exactly on equal values. -/
theorem value_check_iff (keyVal v : Bytes) :
    (keyVal.length ≠ v.length ∨ ¬ zipAllEq v keyVal = true) ↔ v ≠ keyVal := by
  constructor
  · rintro (h | h) rfl
    · exact h rfl
    · exact h (zipAllEq_refl v)
  · intro hne
    by_cases hlen : keyVal.length = v.length
    · right
      intro hc
      exact hne ((zipAllEq_iff_eq v keyVal hlen.symm).mp hc)
    · exact Or.inl hlen

/-- Over a well-formed probe block the scan loop never breaks and reduces
to value filtering. -/
theorem collectIndexRowIds_block {T : Type} (spec : TableSpec T) (secondaryId : Nat)
    (keyVal H : Bytes) (hH : H.length = 8) (es : List (Bytes × Bytes))
    (hes : ∀ kv ∈ es, (probeStart spec secondaryId H).isPrefixOf kv.1 = true ∧
      (∀ b ∈ kv.1, b < 256) ∧ entryWF spec kv.1 kv.2) :
    collectIndexRowIds keyVal H es =
      (es.filter (fun kv => kv.2 == keyVal)).map (fun kv => fromBe (kv.1.drop 13)) := by
  induction es with
  | nil => rfl
  | cons kv rest ih =>
    obtain ⟨k, v⟩ := kv
    obtain ⟨hpfx, hbytes, hwf⟩ := hes (k, v) (List.mem_cons_self _ _)
    obtain ⟨t, hk, htlen, hHh⟩ := block_entry_shape spec secondaryId H hH k v hpfx hwf
    have hdecode : RowKey.fromBytes? k =
        some (.SecondaryIndex (fromBe (beBytes 4 (indexIdOf spec secondaryId))) H (fromBe t)) := by
      rw [hk]
      exact fromBytes?_block_entry _ H t hH htlen
    have hdrop : k.drop 13 = t := by
      rw [hk]
      exact drop_append_len _ _ 13 (by simp [probeStart, hH])
    rw [collectIndexRowIds_cons_sec keyVal H k v rest _ _ _ hdecode]
    rw [if_neg (by simp [zipAllEq_refl])]
    have ihrest := ih fun kv hkv => hes kv (List.mem_cons_of_mem _ hkv)
    by_cases hv : v = keyVal
    · rw [if_neg (by rw [value_check_iff]; simp [hv])]
      subst hv
      simp only [List.filter_cons, beq_self_eq_true, if_pos, List.map_cons, hdrop]
      rw [ihrest]
    · rw [if_pos (by rw [value_check_iff]; exact hv)]
      have hfilter : ((k, v) :: rest).filter (fun kv => kv.2 == keyVal) =
          rest.filter (fun kv => kv.2 == keyVal) := by
        simp only [List.filter_cons]
        rw [if_neg (by simpa using hv)]
      rw [hfilter, ihrest]

theorem entryWF_secondary_key {T : Type} (spec : TableSpec T) (iid : Nat) (hp : Bytes)
    (rid : Nat) (v : Bytes)
    (hwf : entryWF spec (RowKey.SecondaryIndex iid hp rid).toBytes v) :
    hp = beBytes 8 (hash64 spec v) := by
  have hk5 : (RowKey.SecondaryIndex iid hp rid).toBytes.drop 5 = hp ++ beBytes 8 rid := by
    simp only [RowKey.toBytes, List.append_assoc]
    rw [show (5 : Nat) = 4 + 1 from rfl, List.drop_succ_cons]
    exact drop_append_len (beBytes 4 iid) _ 4 (by simp)
  have hklen : (RowKey.SecondaryIndex iid hp rid).toBytes.length = 13 + hp.length := by
    simp only [RowKey.toBytes, List.length_cons, List.length_append, beBytes_length]
    omega
  have h := hwf rfl (by omega)
  rw [hk5, hklen, show 13 + hp.length - 13 = hp.length from by omega,
    take_append_len hp _ hp.length rfl] at h
  exact h

/-- The committed-store characterization of `get_row_from_index` probed at
a key's own hash: the probe returns a non-empty id list exactly when the
store holds a secondary-index entry of the probed index whose stored
value equals the probed encoded key. -/
theorem getRowFromIndex_ne_nil_iff {T : Type} (spec : TableSpec T) (db : Db)
    (hwf : DbWF spec db) (secondaryId : Nat) (keyVal : Bytes) :
    getRowFromIndex spec db secondaryId keyVal (beBytes 8 (hash64 spec keyVal)) ≠ [] ↔
      ∃ hp rid, ((RowKey.SecondaryIndex (indexIdOf spec secondaryId) hp rid).toBytes, keyVal)
        ∈ db := by
  have hH : (beBytes 8 (hash64 spec keyVal)).length = 8 := by simp
  rw [getRowFromIndex_eq_collect spec db secondaryId keyVal _ hH]
  rw [collectIndexRowIds_block spec secondaryId keyVal _ hH _ (by
    intro kv hkv
    rw [dbPrefixScan, List.mem_filter] at hkv
    exact ⟨hkv.2, (hwf kv hkv.1).1, (hwf kv hkv.1).2⟩)]
  constructor
  · intro hne
    have : (dbPrefixScan db (probeStart spec secondaryId (beBytes 8 (hash64 spec keyVal)))).filter
        (fun kv => kv.2 == keyVal) ≠ [] := fun hc => hne (by rw [hc]; rfl)
    obtain ⟨kv, hkv⟩ := List.exists_mem_of_ne_nil _ this
    rw [List.mem_filter, dbPrefixScan, List.mem_filter] at hkv
    obtain ⟨⟨hmem, hpfx⟩, hval⟩ := hkv
    obtain ⟨k, v⟩ := kv
    simp only [beq_iff_eq] at hval
    subst hval
    obtain ⟨t, hk, htlen, -⟩ :=
      block_entry_shape spec secondaryId _ hH k v hpfx ((hwf (k, v) hmem).2)
    refine ⟨beBytes 8 (hash64 spec v), fromBe t, ?_⟩
    have ht8 : beBytes 8 (fromBe t) = t := by
      apply beBytes_fromBe t 8 htlen
      intro b hb
      apply (hwf (k, v) hmem).1
      rw [hk]
      exact List.mem_append_right _ hb
    have : (RowKey.SecondaryIndex (indexIdOf spec secondaryId)
        (beBytes 8 (hash64 spec v)) (fromBe t)).toBytes = k := by
      simp only [RowKey.toBytes, ht8]
      rw [hk, probeStart]
      simp [List.append_assoc]
    rw [this]
    exact hmem
  · rintro ⟨hp, rid, hmem⟩
    have hhp : hp = beBytes 8 (hash64 spec keyVal) :=
      entryWF_secondary_key spec _ hp rid keyVal (hwf _ hmem).2
    subst hhp
    have hpfx : (probeStart spec secondaryId (beBytes 8 (hash64 spec keyVal))).isPrefixOf
        (RowKey.SecondaryIndex (indexIdOf spec secondaryId)
          (beBytes 8 (hash64 spec keyVal)) rid).toBytes = true := by
      rw [List.isPrefixOf_iff_prefix]
      refine ⟨beBytes 8 rid, ?_⟩
      simp [probeStart, RowKey.toBytes, List.append_assoc]
    intro hc
    rw [List.map_eq_nil_iff, List.filter_eq_nil_iff] at hc
    exact hc ((RowKey.SecondaryIndex (indexIdOf spec secondaryId)
        (beBytes 8 (hash64 spec keyVal)) rid).toBytes, keyVal)
      (by rw [dbPrefixScan, List.mem_filter]; exact ⟨hmem, hpfx⟩) (by simp)

/-! ## Unique-probe characterization of `insert`, and batch invariants -/

theorem checkUniqueIndexes_error_iff {T : Type} (spec : TableSpec T) (db : Db) (row : T)
    (ixs : List (SecondaryIndexSpec T)) (e : CubeErr) :
    checkUniqueIndexes spec db row ixs = .error e ↔
      (e = .user "Unique constraint violation" ∧ ∃ ix ∈ ixs, ix.unique = true ∧
        getRowFromIndex spec db ix.localId (ix.keyBy row)
          (beBytes 8 (hash64 spec (ix.keyBy row))) ≠ []) := by
  induction ixs with
  | nil =>
    simp only [checkUniqueIndexes]
    constructor
    · intro h
      exact absurd h (by simp)
    · rintro ⟨-, ix, hmem, -⟩
      simp at hmem
  | cons ix rest ih =>
    simp only [checkUniqueIndexes]
    by_cases hcond : (ix.unique && decide ((getRowFromIndex spec db ix.localId (ix.keyBy row)
        (beBytes 8 (hash64 spec (ix.keyBy row)))).length > 0)) = true
    · rw [if_pos hcond]
      simp only [Bool.and_eq_true, decide_eq_true_eq] at hcond
      constructor
      · intro h
        injection h with h
        refine ⟨h.symm, ix, List.mem_cons_self _ _, hcond.1, ?_⟩
        intro hc
        rw [hc] at hcond
        simp at hcond
      · rintro ⟨rfl, -⟩
        rfl
    · rw [if_neg hcond]
      rw [ih]
      constructor
      · rintro ⟨rfl, ix', hmem, hl⟩
        exact ⟨rfl, ix', List.mem_cons_of_mem _ hmem, hl⟩
      · rintro ⟨rfl, ix', hmem, huniq, hne⟩
        rcases List.mem_cons.mp hmem with rfl | hmem'
        · exfalso
          apply hcond
          simp only [Bool.and_eq_true, decide_eq_true_eq]
          refine ⟨huniq, ?_⟩
          cases hlist : getRowFromIndex spec db ix'.localId (ix'.keyBy row)
            (beBytes 8 (hash64 spec (ix'.keyBy row))) with
          | nil => exact absurd hlist hne
          | cons a l => simp
        · exact ⟨rfl, ix', hmem', huniq, hne⟩

theorem checkUniqueIndexes_ok_or_error {T : Type} (spec : TableSpec T) (db : Db) (row : T)
    (ixs : List (SecondaryIndexSpec T)) :
    checkUniqueIndexes spec db row ixs = .ok () ∨
      checkUniqueIndexes spec db row ixs = .error (.user "Unique constraint violation") := by
  induction ixs with
  | nil => exact Or.inl rfl
  | cons ix rest ih =>
    simp only [checkUniqueIndexes]
    by_cases hcond : (ix.unique && decide ((getRowFromIndex spec db ix.localId (ix.keyBy row)
        (beBytes 8 (hash64 spec (ix.keyBy row)))).length > 0)) = true
    · rw [if_pos hcond]
      exact Or.inr rfl
    · rw [if_neg hcond]
      exact ih

/-- Per-batch-entry invariant compatible with `DbWF`. -/
def entryOK {T : Type} (spec : TableSpec T) : BatchEntry → Prop
  | .put k v => (∀ b ∈ k, b < 256) ∧ entryWF spec k v
  | .del _ => True

def BatchEntry.keyOf : BatchEntry → Bytes
  | .put k _ => k
  | .del k => k

theorem dbPut_wf {T : Type} (spec : TableSpec T) {db : Db} (hdb : DbWF spec db)
    {k v : Bytes} (hk : ∀ b ∈ k, b < 256) (he : entryWF spec k v) :
    DbWF spec (dbPut db k v) := by
  intro kv hkv
  rcases dbPut_mem_elim db k v hkv with rfl | hmem
  · exact ⟨hk, he⟩
  · exact hdb kv hmem

theorem dbDelete_wf {T : Type} (spec : TableSpec T) {db : Db} (hdb : DbWF spec db)
    (k : Bytes) : DbWF spec (dbDelete db k) := by
  intro kv hkv
  exact hdb kv (dbDelete_mem_elim db k hkv).1

theorem applyBatch_wf {T : Type} (spec : TableSpec T) {db : Db} {batch : List BatchEntry}
    (hdb : DbWF spec db) (hb : ∀ e ∈ batch, entryOK spec e) :
    DbWF spec (applyBatch db batch) := by
  induction batch generalizing db with
  | nil => exact hdb
  | cons e rest ih =>
    cases e with
    | put k v =>
      have hok := hb _ (List.mem_cons_self _ _)
      exact ih (dbPut_wf spec hdb hok.1 hok.2) fun e he => hb e (List.mem_cons_of_mem _ he)
    | del k =>
      exact ih (dbDelete_wf spec hdb k) fun e he => hb e (List.mem_cons_of_mem _ he)

theorem applyBatch_append (db : Db) (b₁ b₂ : List BatchEntry) :
    applyBatch db (b₁ ++ b₂) = applyBatch (applyBatch db b₁) b₂ := by
  induction b₁ generalizing db with
  | nil => rfl
  | cons e rest ih =>
    cases e with
    | put k v => exact ih (dbPut db k v)
    | del k => exact ih (dbDelete db k)

theorem applyBatch_mem_untouched (db : Db) (b : List BatchEntry) {k v : Bytes}
    (hm : (k, v) ∈ db) (hnt : ∀ e ∈ b, BatchEntry.keyOf e ≠ k) :
    (k, v) ∈ applyBatch db b := by
  induction b generalizing db with
  | nil => exact hm
  | cons e rest ih =>
    cases e with
    | put k' v' =>
      have hk' : k' ≠ k := hnt _ (List.mem_cons_self _ _)
      exact ih (dbPut db k' v')
        (dbPut_mem_of_mem db k' v' hm fun hc => hk' hc.symm)
        fun e he => hnt e (List.mem_cons_of_mem _ he)
    | del k' =>
      have hk' : k' ≠ k := hnt _ (List.mem_cons_self _ _)
      exact ih (dbDelete db k')
        (dbDelete_mem_of_mem db k' hm fun hc => hk' hc.symm)
        fun e he => hnt e (List.mem_cons_of_mem _ he)

theorem applyBatch_mem_of_put_last (db : Db) (b₁ b₂ : List BatchEntry) (k v : Bytes)
    (h2 : ∀ e ∈ b₂, BatchEntry.keyOf e ≠ k) :
    (k, v) ∈ applyBatch db (b₁ ++ .put k v :: b₂) := by
  rw [applyBatch_append]
  exact applyBatch_mem_untouched _ b₂ (dbPut_mem _ k v) h2

/-! Shapes and byte-ranges of engine-generated keys. -/

theorem primaryKey_bytes_lt {T : Type} (spec : TableSpec T) (rid : Nat) :
    ∀ b ∈ primaryKey spec rid, b < 256 := by
  intro b hb
  simp only [primaryKey, RowKey.toBytes, List.mem_cons, List.mem_append] at hb
  rcases hb with rfl | (h | h) | h
  · omega
  · exact beBytes_lt_256 _ _ _ h
  · exact beBytes_lt_256 _ _ _ h
  · exact beBytes_lt_256 _ _ _ h

theorem seqKey_bytes_lt {T : Type} (spec : TableSpec T) :
    ∀ b ∈ seqKey spec, b < 256 := by
  intro b hb
  simp only [seqKey, RowKey.toBytes, List.mem_cons] at hb
  rcases hb with rfl | h
  · omega
  · exact beBytes_lt_256 _ _ _ h

theorem indexEntryKey_bytes_lt {T : Type} (spec : TableSpec T) (ix : SecondaryIndexSpec T)
    (h rid : Nat) : ∀ b ∈ indexEntryKey spec ix h rid, b < 256 := by
  intro b hb
  simp only [indexEntryKey, RowKey.toBytes, List.mem_cons, List.mem_append] at hb
  rcases hb with rfl | (h | h) | h
  · omega
  · exact beBytes_lt_256 _ _ _ h
  · exact beBytes_lt_256 _ _ _ h
  · exact beBytes_lt_256 _ _ _ h

theorem entryWF_primaryKey {T : Type} (spec : TableSpec T) (rid : Nat) (v : Bytes) :
    entryWF spec (primaryKey spec rid) v := by
  intro hc
  simp [primaryKey, RowKey.toBytes] at hc

theorem entryWF_seqKey {T : Type} (spec : TableSpec T) (v : Bytes) :
    entryWF spec (seqKey spec) v := by
  intro hc
  simp [seqKey, RowKey.toBytes] at hc

theorem entryWF_indexEntryKey {T : Type} (spec : TableSpec T) (ix : SecondaryIndexSpec T)
    (row : T) (rid : Nat) :
    entryWF spec (indexEntryKey spec ix (hash64 spec (ix.keyBy row)) rid) (ix.keyBy row) := by
  intro h1 h2
  simp only [indexEntryKey, RowKey.toBytes, List.append_assoc]
  rw [show (5 : Nat) = 4 + 1 from rfl, List.drop_succ_cons,
    drop_append_len (beBytes 4 (indexIdOf spec ix.localId)) _ 4 (by simp)]
  have hlen : (3 :: (beBytes 4 (indexIdOf spec ix.localId) ++
      (beBytes 8 (hash64 spec (ix.keyBy row)) ++ beBytes 8 rid))).length - 13 = 8 := by
    simp
  rw [hlen, take_append_len _ _ 8 (by simp)]

theorem TableId.toNat_le (t : TableId) : t.toNat ≤ 1792 := by
  cases t <;> norm_num [TableId.toNat]

theorem foldl_stagePut_batch (l : List (Bytes × Bytes)) (pipe : BatchPipe) :
    (l.foldl (fun p kv => p.stagePut kv.1 kv.2) pipe).batch =
      pipe.batch ++ l.map (fun kv => BatchEntry.put kv.1 kv.2) := by
  induction l generalizing pipe with
  | nil => simp
  | cons kv rest ih =>
    rw [List.foldl_cons, ih]
    simp [BatchPipe.stagePut, List.append_assoc]

theorem foldl_stageDelete_batch (l : List (Bytes × Bytes)) (pipe : BatchPipe) :
    (l.foldl (fun p kv => p.stageDelete kv.1) pipe).batch =
      pipe.batch ++ l.map (fun kv => BatchEntry.del kv.1) := by
  induction l generalizing pipe with
  | nil => simp
  | cons kv rest ih =>
    rw [List.foldl_cons, ih]
    simp [BatchPipe.stageDelete, List.append_assoc]

theorem foldl_stagePut_events (l : List (Bytes × Bytes)) (pipe : BatchPipe) :
    (l.foldl (fun p kv => p.stagePut kv.1 kv.2) pipe).events = pipe.events := by
  induction l generalizing pipe with
  | nil => rfl
  | cons kv rest ih =>
    rw [List.foldl_cons, ih]
    rfl

theorem foldl_stageDelete_events (l : List (Bytes × Bytes)) (pipe : BatchPipe) :
    (l.foldl (fun p kv => p.stageDelete kv.1) pipe).events = pipe.events := by
  induction l generalizing pipe with
  | nil => rfl
  | cons kv rest ih =>
    rw [List.foldl_cons, ih]
    rfl

/-- Decomposition of a successful `insert`. -/
theorem insertOp_ok_elim {T : Type} (spec : TableSpec T) (row : T) (db : Db)
    (pipe : BatchPipe) {idr : IdRow T} {db₁ : Db} {pipe₁ : BatchPipe}
    (h : insertOp spec row db pipe = (.ok idr, db₁, pipe₁)) :
    checkUniqueIndexes spec db row spec.indexes = .ok () ∧
    idr.row = row ∧
    db₁ = dbPut db (seqKey spec) (beBytes 8 idr.id) ∧
    pipe₁.batch = pipe.batch ++ BatchEntry.put (primaryKey spec idr.id) (spec.ser row) ::
      (insertIndexRow spec row idr.id).map (fun kv => BatchEntry.put kv.1 kv.2) ∧
    pipe₁.events = pipe.events ++ [.insert spec.tableId idr.id] := by
  unfold insertOp at h
  cases hchk : checkUniqueIndexes spec db row spec.indexes with
  | error e =>
    rw [hchk] at h
    simp at h
  | ok u =>
    cases u
    rw [hchk] at h
    simp only [insertRowKv, nextTableSeq, Prod.mk.injEq] at h
    obtain ⟨hres, hdb, hpipe⟩ := h
    rw [Except.ok.injEq] at hres
    refine ⟨rfl, by rw [← hres], ?_, ?_, ?_⟩
    · rw [← hdb, ← hres]
    · rw [← hpipe, ← hres, foldl_stagePut_batch]
      simp [BatchPipe.stagePut, BatchPipe.addEvent, primaryKey]
    · rw [← hpipe, ← hres, foldl_stagePut_events]
      simp [BatchPipe.stagePut, BatchPipe.addEvent]

/-- Keys of index entries of distinct declared indexes differ. -/
theorem indexEntryKey_ne {T : Type} (spec : TableSpec T) (ix ix' : SecondaryIndexSpec T)
    (h h' rid rid' : Nat) (hb : ix.localId ≤ 99) (hb' : ix'.localId ≤ 99)
    (hne : ix.localId ≠ ix'.localId) :
    indexEntryKey spec ix h rid ≠ indexEntryKey spec ix' h' rid' := by
  intro hc
  simp only [indexEntryKey, RowKey.toBytes, List.append_assoc, List.cons.injEq] at hc
  have h4 := congrArg (List.take 4) hc.2
  rw [take_append_len _ _ 4 (by simp), take_append_len _ _ 4 (by simp)] at h4
  have hlt : indexIdOf spec ix.localId < 256 ^ 4 := by
    have := spec.tableId.toNat_le
    simp only [indexIdOf]
    norm_num
    omega
  have hlt' : indexIdOf spec ix'.localId < 256 ^ 4 := by
    have := spec.tableId.toNat_le
    simp only [indexIdOf]
    norm_num
    omega
  have := beBytes_injOn 4 _ _ hlt hlt' h4
  simp only [indexIdOf] at this
  omega

/-- The semantic conflict predicate of claim C2: some existing entry of
the probed index stores exactly the new row's encoded index key. -/
def hasConflictingEntry {T : Type} (spec : TableSpec T) (db : Db)
    (ix : SecondaryIndexSpec T) (row : T) : Prop :=
  ∃ hp rid, ((RowKey.SecondaryIndex (indexIdOf spec ix.localId) hp rid).toBytes,
    ix.keyBy row) ∈ db

theorem insertOp_error_iff {T : Type} (spec : TableSpec T) (db : Db) (pipe : BatchPipe)
    (row : T) (hwf : DbWF spec db) :
    (insertOp spec row db pipe).1 = .error (.user "Unique constraint violation") ↔
      ∃ ix ∈ spec.indexes, ix.unique = true ∧ hasConflictingEntry spec db ix row := by
  have hprobe : ∀ ix : SecondaryIndexSpec T,
      (getRowFromIndex spec db ix.localId (ix.keyBy row)
        (beBytes 8 (hash64 spec (ix.keyBy row))) ≠ []) ↔
      hasConflictingEntry spec db ix row := fun ix =>
    getRowFromIndex_ne_nil_iff spec db hwf ix.localId (ix.keyBy row)
  unfold insertOp
  rcases checkUniqueIndexes_ok_or_error spec db row spec.indexes with hok | herr
  · rw [hok]
    simp only [reduceCtorEq, false_iff, not_exists]
    intro ix hmem
    obtain ⟨hmem, huniq, hconf⟩ := hmem
    have : checkUniqueIndexes spec db row spec.indexes =
        .error (.user "Unique constraint violation") :=
      (checkUniqueIndexes_error_iff spec db row spec.indexes _).mpr
        ⟨rfl, ix, hmem, huniq, (hprobe ix).mpr hconf⟩
    rw [hok] at this
    exact absurd this (by simp)
  · rw [herr]
    simp only [true_iff]
    obtain ⟨-, ix, hmem, huniq, hne⟩ :=
      (checkUniqueIndexes_error_iff spec db row spec.indexes _).mp herr
    exact ⟨ix, hmem, huniq, (hprobe ix).mp hne⟩

theorem insertOp_commit_wf {T : Type} (spec : TableSpec T) (row : T) (db : Db)
    {idr : IdRow T} {db₁ : Db} {pipe₁ : BatchPipe} (hwf : DbWF spec db)
    (h : insertOp spec row db BatchPipe.empty = (.ok idr, db₁, pipe₁)) :
    DbWF spec (applyBatch db₁ pipe₁.batch) := by
  obtain ⟨-, -, hdb, hbatch, -⟩ := insertOp_ok_elim spec row db BatchPipe.empty h
  have hdb₁ : DbWF spec db₁ := by
    rw [hdb]
    exact dbPut_wf spec hwf (seqKey_bytes_lt spec) (entryWF_seqKey spec _)
  apply applyBatch_wf spec hdb₁
  rw [hbatch]
  intro e he
  simp only [BatchPipe.empty, List.nil_append, List.mem_cons, List.mem_map] at he
  rcases he with rfl | ⟨kv, hkv, rfl⟩
  · exact ⟨primaryKey_bytes_lt spec _, entryWF_primaryKey spec _ _⟩
  · simp only [insertIndexRow, List.mem_map] at hkv
    obtain ⟨ix, hix, rfl⟩ := hkv
    exact ⟨indexEntryKey_bytes_lt spec _ _ _, entryWF_indexEntryKey spec ix row idr.id⟩

/-- **C2.**  For every table and every unique secondary index,
`insert(row)` fails with `UniqueViolation` if and only if some existing
secondary-index entry of that index stores exactly the new row's encoded
index key (so two rows whose unique keys share a 64-bit hash but have
different encoded bytes do not conflict); and inserting two distinct rows
with equal unique keys — in either order, by symmetry of the
quantifiers — yields one success and one `UniqueViolation`. -/
theorem insert_unique_violation_iff_conflict {T : Type} (spec : TableSpec T)
    (hspec : spec.WF) :
    (∀ db pipe row, DbWF spec db →
      ((insertOp spec row db pipe).1 = .error (.user "Unique constraint violation") ↔
        ∃ ix ∈ spec.indexes, ix.unique = true ∧ hasConflictingEntry spec db ix row)) ∧
    (∀ db r1 r2 ix idr db₁ pipe₁ pipe', DbWF spec db → ix ∈ spec.indexes →
      ix.unique = true → ix.keyBy r1 = ix.keyBy r2 →
      insertOp spec r1 db BatchPipe.empty = (.ok idr, db₁, pipe₁) →
      (insertOp spec r2 (applyBatch db₁ pipe₁.batch) pipe').1 =
        .error (.user "Unique constraint violation")) := by
  constructor
  · intro db pipe row hwf
    exact insertOp_error_iff spec db pipe row hwf
  · intro db r1 r2 ix idr db₁ pipe₁ pipe' hwf hmem huniq hkey hins
    have hwf₂ := insertOp_commit_wf spec r1 db hwf hins
    rw [insertOp_error_iff spec _ pipe' r2 hwf₂]
    refine ⟨ix, hmem, huniq, ?_⟩
    obtain ⟨-, -, hdb, hbatch, -⟩ := insertOp_ok_elim spec r1 db BatchPipe.empty hins
    obtain ⟨l₁, l₂, hsplit⟩ := List.append_of_mem hmem
    refine ⟨beBytes 8 (hash64 spec (ix.keyBy r1)), idr.id, ?_⟩
    rw [← hkey, hbatch]
    have hpair := hspec.2
    rw [hsplit] at hpair
    have hcross : ∀ b ∈ l₂, ix.localId ≠ b.localId :=
      (List.pairwise_cons.mp (List.pairwise_append.mp hpair).2.1).1
    have hbounds : ∀ b ∈ l₂, b.localId ≤ 99 := fun b hb =>
      hspec.1 b (by rw [hsplit]; exact List.mem_append_right _ (List.mem_cons_of_mem _ hb))
    have hbix : ix.localId ≤ 99 := hspec.1 ix hmem
    simp only [BatchPipe.empty, List.nil_append, insertIndexRow, hsplit, List.map_append,
      List.map_cons, List.map_map, Function.comp]
    rw [← List.cons_append]
    exact applyBatch_mem_of_put_last db₁ _ _ _ _ (by
      intro e he
      simp only [List.mem_map, Function.comp] at he
      obtain ⟨ix', hix', rfl⟩ := he
      simp only [BatchEntry.keyOf]
      exact indexEntryKey_ne spec ix' ix _ _ _ _ (hbounds ix' hix') hbix
        fun hc => hcross ix' hix' hc.symm)

/-- A `Nat`-row table with one unique secondary index, used by witnesses. -/
def specUnique : TableSpec Nat :=
  { tableId := .Jobs
    ser := natSer
    deser := natDeser
    indexes := [⟨0, fun n => [n % 3], true⟩]
    hashBytes := fun _ => 7 }

theorem insert_unique_violation_iff_conflict_witness :
    (insertOp specUnique 7
      (applyBatch (insertOp specUnique 4 ([] : Db) BatchPipe.empty).2.1
        (insertOp specUnique 4 ([] : Db) BatchPipe.empty).2.2.batch)
      BatchPipe.empty).1 = .error (.user "Unique constraint violation") :=
  (insert_unique_violation_iff_conflict specUnique
      ⟨by decide, List.pairwise_singleton _ _⟩).2
    [] 4 7 ⟨0, fun n => [n % 3], true⟩ ⟨1, 4⟩
    (insertOp specUnique 4 ([] : Db) BatchPipe.empty).2.1
    (insertOp specUnique 4 ([] : Db) BatchPipe.empty).2.2
    BatchPipe.empty (by decide) (List.mem_singleton.mpr rfl) rfl (by decide) rfl

/-! ## C9: the uniqueness probe reads only committed state -/

/-- The current value of the sequence counter (0 when absent). -/
def seqNow {T : Type} (spec : TableSpec T) (db : Db) : Nat :=
  match dbGet db (seqKey spec) with
  | some v => fromBe (v.take 8)
  | none => 0

theorem insertOp_eq_of_check_ok {T : Type} (spec : TableSpec T) (row : T) (db : Db)
    (pipe : BatchPipe) (h : checkUniqueIndexes spec db row spec.indexes = .ok ()) :
    insertOp spec row db pipe =
      (.ok ⟨seqNow spec db + 1, row⟩,
        dbPut db (seqKey spec) (beBytes 8 (seqNow spec db + 1)),
        (insertIndexRow spec row (seqNow spec db + 1)).foldl
          (fun p kv => p.stagePut kv.1 kv.2)
          ((pipe.addEvent (.insert spec.tableId (seqNow spec db + 1))).stagePut
            (primaryKey spec (seqNow spec db + 1)) (spec.ser row))) := by
  unfold insertOp
  rw [h]
  rfl

/-- A put whose key does not carry the scanned prefix is invisible to the
prefix scan. -/
theorem dbPrefixScan_put_other (db : Db) (k v p : Bytes)
    (h : p.isPrefixOf k = false) :
    dbPrefixScan (dbPut db k v) p = dbPrefixScan db p := by
  induction db with
  | nil => simp [dbPut, dbPrefixScan, h]
  | cons kv rest ih =>
    obtain ⟨k', v'⟩ := kv
    cases h1 : bytesLt k k' with
    | true =>
      rw [dbPut_cons_lt _ _ _ h1]
      simp only [dbPrefixScan, List.filter_cons, h]
      rfl
    | false =>
      by_cases h2 : k = k'
      · rw [dbPut_cons_eq _ _ _ h1 h2]
        simp only [dbPrefixScan, List.filter_cons, h, ← h2]
        rfl
      · rw [dbPut_cons_gt _ _ _ h1 h2]
        simp only [dbPrefixScan, List.filter_cons] at ih ⊢
        rw [ih]

theorem probeStart_not_prefix_seqKey {T : Type} (spec : TableSpec T) (secondaryId : Nat)
    (H : Bytes) : (probeStart spec secondaryId H).isPrefixOf (seqKey spec) = false := by
  simp [probeStart, seqKey, RowKey.toBytes, List.isPrefixOf]

theorem getRowFromIndex_put_seq {T : Type} (spec : TableSpec T) (db : Db) (v : Bytes)
    (secondaryId : Nat) (keyVal H : Bytes) (hH : H.length = 8) :
    getRowFromIndex spec (dbPut db (seqKey spec) v) secondaryId keyVal H =
      getRowFromIndex spec db secondaryId keyVal H := by
  rw [getRowFromIndex_eq_collect _ _ _ _ _ hH, getRowFromIndex_eq_collect _ _ _ _ _ hH,
    dbPrefixScan_put_other _ _ _ _ (probeStart_not_prefix_seqKey spec secondaryId H)]

theorem checkUniqueIndexes_put_seq {T : Type} (spec : TableSpec T) (db : Db) (v : Bytes)
    (row : T) (ixs : List (SecondaryIndexSpec T)) :
    checkUniqueIndexes spec (dbPut db (seqKey spec) v) row ixs =
      checkUniqueIndexes spec db row ixs := by
  induction ixs with
  | nil => rfl
  | cons ix rest ih =>
    simp only [checkUniqueIndexes]
    rw [getRowFromIndex_put_seq spec db v ix.localId (ix.keyBy row) _ (by simp), ih]

/-- The last staged operation on a key in a batch, if any. -/
def batchLast : List BatchEntry → Bytes → Option (Option Bytes)
  | [], _ => none
  | .put k' v :: rest, k =>
    match batchLast rest k with
    | some r => some r
    | none => if k' = k then some (some v) else none
  | .del k' :: rest, k =>
    match batchLast rest k with
    | some r => some r
    | none => if k' = k then some none else none

theorem dbGet_applyBatch (db : Db) (batch : List BatchEntry) (k : Bytes) :
    dbGet (applyBatch db batch) k = (batchLast batch k).getD (dbGet db k) := by
  induction batch generalizing db with
  | nil => rfl
  | cons e rest ih =>
    cases e with
    | put k' v =>
      show dbGet (applyBatch (dbPut db k' v) rest) k = _
      rw [ih]
      simp only [batchLast]
      cases hb : batchLast rest k with
      | some r => rfl
      | none =>
        simp only [Option.getD]
        by_cases hk : k' = k
        · subst hk
          rw [dbGet_put_self, if_pos rfl]
        · rw [dbGet_put_other db k' v k fun hc => hk hc.symm, if_neg hk]
    | del k' =>
      show dbGet (applyBatch (dbDelete db k') rest) k = _
      rw [ih]
      simp only [batchLast]
      cases hb : batchLast rest k with
      | some r => rfl
      | none =>
        simp only [Option.getD]
        by_cases hk : k' = k
        · subst hk
          rw [dbGet_delete_self, if_pos rfl]
        · rw [dbGet_delete_other db k' k fun hc => hk hc.symm, if_neg hk]

theorem batchLast_append (a b : List BatchEntry) (k : Bytes) :
    batchLast (a ++ b) k =
      match batchLast b k with
      | some r => some r
      | none => batchLast a k := by
  induction a with
  | nil =>
    simp only [List.nil_append]
    cases hb : batchLast b k <;> simp [batchLast]
  | cons e rest ih =>
    cases e with
    | put k' v =>
      show (match batchLast (rest ++ b) k with
        | some r => some r
        | none => if k' = k then some (some v) else none) = _
      rw [ih]
      cases hb : batchLast b k <;> cases hr : batchLast rest k <;> simp [batchLast, hr]
    | del k' =>
      show (match batchLast (rest ++ b) k with
        | some r => some r
        | none => if k' = k then some none else none) = _
      rw [ih]
      cases hb : batchLast b k <;> cases hr : batchLast rest k <;> simp [batchLast, hr]

theorem batchLast_eq_none (b : List BatchEntry) (k : Bytes)
    (h : ∀ e ∈ b, BatchEntry.keyOf e ≠ k) : batchLast b k = none := by
  induction b with
  | nil => rfl
  | cons e rest ih =>
    have hrest := ih fun e he => h e (List.mem_cons_of_mem _ he)
    cases e with
    | put k' v =>
      simp only [batchLast, hrest]
      rw [if_neg (show k' ≠ k from h _ (List.mem_cons_self _ _))]
    | del k' =>
      simp only [batchLast, hrest]
      rw [if_neg (show k' ≠ k from h _ (List.mem_cons_self _ _))]

theorem primaryKey_ne_indexEntryKey {T : Type} (spec : TableSpec T) (rid : Nat)
    (ix : SecondaryIndexSpec T) (h rid' : Nat) :
    indexEntryKey spec ix h rid' ≠ primaryKey spec rid := by
  intro hc
  simp [indexEntryKey, primaryKey, RowKey.toBytes] at hc

theorem primaryKey_inj {T : Type} (spec : TableSpec T) (a b : Nat) (ha : a < 2 ^ 64)
    (hb : b < 2 ^ 64) (h : primaryKey spec a = primaryKey spec b) : a = b := by
  simp only [primaryKey, RowKey.toBytes, List.cons.injEq, true_and] at h
  have h8 := congrArg (fun l => (l.drop 12).take 8) h
  simp only at h8
  rw [drop_append_len (beBytes 4 spec.tableId.toNat ++ beBytes 8 0) _ 12 (by simp),
    drop_append_len (beBytes 4 spec.tableId.toNat ++ beBytes 8 0) _ 12 (by simp)] at h8
  rw [List.take_of_length_le (by simp), List.take_of_length_le (by simp)] at h8
  exact beBytes_injOn 8 a b (by rw [pow256_eight]; exact ha) (by rw [pow256_eight]; exact hb) h8

/-- Two inserts of the generic table engine executed inside a single
`write_operation` closure, sequenced exactly as the Rust `?` operator
threads them. -/
def insertTwice {T : Type} (spec : TableSpec T) (r1 r2 : T) :
    Db → BatchPipe → Except CubeErr (IdRow T × IdRow T) × Db × BatchPipe :=
  fun db pipe =>
    match insertOp spec r1 db pipe with
    | (.error e, db', pipe') => (.error e, db', pipe')
    | (.ok idr1, db', pipe') =>
      match insertOp spec r2 db' pipe' with
      | (.error e, db'', pipe'') => (.error e, db'', pipe'')
      | (.ok idr2, db'', pipe'') => (.ok (idr1, idr2), db'', pipe'')

theorem batchLast_indexPuts_primary {T : Type} (spec : TableSpec T) (row : T)
    (rid rid' : Nat) :
    batchLast ((insertIndexRow spec row rid).map (fun kv => BatchEntry.put kv.1 kv.2))
      (primaryKey spec rid') = none := by
  apply batchLast_eq_none
  intro e he
  simp only [insertIndexRow, List.map_map, List.mem_map, Function.comp] at he
  obtain ⟨ix, hix, rfl⟩ := he
  simp only [BatchEntry.keyOf]
  exact primaryKey_ne_indexEntryKey spec rid' ix _ rid

theorem seqNow_put_seq {T : Type} (spec : TableSpec T) (db : Db) (m : Nat)
    (hm : m < 2 ^ 64) :
    seqNow spec (dbPut db (seqKey spec) (beBytes 8 m)) = m := by
  have h1 : seqNow spec (dbPut db (seqKey spec) (beBytes 8 m)) =
      fromBe ((beBytes 8 m).take 8) := by
    unfold seqNow
    rw [dbGet_put_self]
  rw [h1, List.take_of_length_le (by simp)]
  exact fromBe_beBytes 8 m (by rw [pow256_eight]; exact hm)

/-- The batch staged by one `insert` on top of an existing pipe. -/
theorem insert_pipe_batch {T : Type} (spec : TableSpec T) (row : T) (rid : Nat)
    (pipe : BatchPipe) :
    ((insertIndexRow spec row rid).foldl (fun p kv => p.stagePut kv.1 kv.2)
      ((pipe.addEvent (.insert spec.tableId rid)).stagePut
        (primaryKey spec rid) (spec.ser row))).batch =
    pipe.batch ++ (BatchEntry.put (primaryKey spec rid) (spec.ser row) ::
      (insertIndexRow spec row rid).map (fun kv => BatchEntry.put kv.1 kv.2)) := by
  rw [foldl_stagePut_batch]
  simp [BatchPipe.stagePut, BatchPipe.addEvent, List.append_assoc]

/-- **C9.**  The uniqueness probe of `insert` reads only state already
committed to the key-value store, not mutations staged earlier in the
same `BatchPipe`: for two rows with equal unique-index keys inserted
within the same `write_operation` closure (into a store with no
pre-existing conflicting entries), both inserts succeed, the operation
commits, and afterwards both rows are stored — two committed rows with
the same unique key. -/
theorem insert_twice_equal_unique_keys_both_commit {T : Type} (spec : TableSpec T)
    (db : Db) (r1 r2 : T) (ix : SecondaryIndexSpec T)
    (hwf : DbWF spec db) (hmem : ix ∈ spec.indexes) (huniq : ix.unique = true)
    (hkey : ix.keyBy r1 = ix.keyBy r2)
    (hnc1 : ∀ ix' ∈ spec.indexes, ix'.unique = true → ¬ hasConflictingEntry spec db ix' r1)
    (hnc2 : ∀ ix' ∈ spec.indexes, ix'.unique = true → ¬ hasConflictingEntry spec db ix' r2)
    (hn : seqNow spec db + 2 < 2 ^ 64) :
    ∃ dbF events,
      writeOperation db (insertTwice spec r1 r2) =
        (.ok ((⟨seqNow spec db + 1, r1⟩, ⟨seqNow spec db + 2, r2⟩), events), dbF) ∧
      dbGet dbF (primaryKey spec (seqNow spec db + 1)) = some (spec.ser r1) ∧
      dbGet dbF (primaryKey spec (seqNow spec db + 2)) = some (spec.ser r2) := by
  have hchk1 : checkUniqueIndexes spec db r1 spec.indexes = .ok () := by
    rcases checkUniqueIndexes_ok_or_error spec db r1 spec.indexes with h | h
    · exact h
    · exfalso
      obtain ⟨-, ix', hmem', huniq', hne'⟩ :=
        (checkUniqueIndexes_error_iff spec db r1 spec.indexes _).mp h
      exact hnc1 ix' hmem' huniq'
        ((getRowFromIndex_ne_nil_iff spec db hwf ix'.localId _).mp hne')
  have ha := insertOp_eq_of_check_ok spec r1 db BatchPipe.empty hchk1
  have hseq' := seqNow_put_seq spec db (seqNow spec db + 1) (by omega)
  have hchk2 : checkUniqueIndexes spec
      (dbPut db (seqKey spec) (beBytes 8 (seqNow spec db + 1))) r2 spec.indexes =
      .ok () := by
    rw [checkUniqueIndexes_put_seq]
    rcases checkUniqueIndexes_ok_or_error spec db r2 spec.indexes with h | h
    · exact h
    · exfalso
      obtain ⟨-, ix', hmem', huniq', hne'⟩ :=
        (checkUniqueIndexes_error_iff spec db r2 spec.indexes _).mp h
      exact hnc2 ix' hmem' huniq'
        ((getRowFromIndex_ne_nil_iff spec db hwf ix'.localId _).mp hne')
  have hb := insertOp_eq_of_check_ok spec r2
    (dbPut db (seqKey spec) (beBytes 8 (seqNow spec db + 1)))
    ((insertIndexRow spec r1 (seqNow spec db + 1)).foldl (fun p kv => p.stagePut kv.1 kv.2)
      ((BatchPipe.empty.addEvent (.insert spec.tableId (seqNow spec db + 1))).stagePut
        (primaryKey spec (seqNow spec db + 1)) (spec.ser r1))) hchk2
  rw [hseq'] at hb
  have hp2p1 : primaryKey spec (seqNow spec db + 1 + 1) ≠
      primaryKey spec (seqNow spec db + 1) := by
    intro hc
    have := primaryKey_inj spec _ _ (by omega) (by omega) hc
    omega
  have hmain : writeOperation db (insertTwice spec r1 r2) =
      (.ok ((⟨seqNow spec db + 1, r1⟩, ⟨seqNow spec db + 2, r2⟩),
        ((insertIndexRow spec r2 (seqNow spec db + 1 + 1)).foldl
          (fun p kv => p.stagePut kv.1 kv.2)
          ((((insertIndexRow spec r1 (seqNow spec db + 1)).foldl
              (fun p kv => p.stagePut kv.1 kv.2)
              ((BatchPipe.empty.addEvent (.insert spec.tableId (seqNow spec db + 1))).stagePut
                (primaryKey spec (seqNow spec db + 1)) (spec.ser r1))).addEvent
            (.insert spec.tableId (seqNow spec db + 1 + 1))).stagePut
            (primaryKey spec (seqNow spec db + 1 + 1)) (spec.ser r2))).events),
        applyBatch
          (dbPut (dbPut db (seqKey spec) (beBytes 8 (seqNow spec db + 1))) (seqKey spec)
            (beBytes 8 (seqNow spec db + 1 + 1)))
          ((insertIndexRow spec r2 (seqNow spec db + 1 + 1)).foldl
            (fun p kv => p.stagePut kv.1 kv.2)
            ((((insertIndexRow spec r1 (seqNow spec db + 1)).foldl
                (fun p kv => p.stagePut kv.1 kv.2)
                ((BatchPipe.empty.addEvent (.insert spec.tableId (seqNow spec db + 1))).stagePut
                  (primaryKey spec (seqNow spec db + 1)) (spec.ser r1))).addEvent
              (.insert spec.tableId (seqNow spec db + 1 + 1))).stagePut
              (primaryKey spec (seqNow spec db + 1 + 1)) (spec.ser r2))).batch) := by
    unfold writeOperation
    simp only [insertTwice, ha, hb]
  refine ⟨_, _, hmain, ?_, ?_⟩
  · rw [dbGet_applyBatch, insert_pipe_batch, insert_pipe_batch]
    rw [show BatchPipe.empty.batch = [] from rfl, List.nil_append, batchLast_append]
    have h2 : batchLast
        (BatchEntry.put (primaryKey spec (seqNow spec db + 1 + 1)) (spec.ser r2) ::
          (insertIndexRow spec r2 (seqNow spec db + 1 + 1)).map
            (fun kv => BatchEntry.put kv.1 kv.2))
        (primaryKey spec (seqNow spec db + 1)) = none := by
      simp only [batchLast, batchLast_indexPuts_primary]
      rw [if_neg hp2p1]
    have h1 : batchLast
        (BatchEntry.put (primaryKey spec (seqNow spec db + 1)) (spec.ser r1) ::
          (insertIndexRow spec r1 (seqNow spec db + 1)).map
            (fun kv => BatchEntry.put kv.1 kv.2))
        (primaryKey spec (seqNow spec db + 1)) = some (some (spec.ser r1)) := by
      simp only [batchLast, batchLast_indexPuts_primary]
      simp
    rw [h2, h1]
    rfl
  · rw [dbGet_applyBatch, insert_pipe_batch, insert_pipe_batch]
    rw [show BatchPipe.empty.batch = [] from rfl, List.nil_append, batchLast_append]
    have h2 : batchLast
        (BatchEntry.put (primaryKey spec (seqNow spec db + 1 + 1)) (spec.ser r2) ::
          (insertIndexRow spec r2 (seqNow spec db + 1 + 1)).map
            (fun kv => BatchEntry.put kv.1 kv.2))
        (primaryKey spec (seqNow spec db + 2)) = some (some (spec.ser r2)) := by
      simp only [batchLast, batchLast_indexPuts_primary]
      simp
    rw [h2]
    rfl

theorem insert_twice_equal_unique_keys_both_commit_witness :
    ∃ dbF events,
      writeOperation ([] : Db) (insertTwice specUnique 4 7) =
        (.ok ((⟨1, 4⟩, ⟨2, 7⟩), events), dbF) ∧
      dbGet dbF (primaryKey specUnique 1) = some (specUnique.ser 4) ∧
      dbGet dbF (primaryKey specUnique 2) = some (specUnique.ser 7) :=
  insert_twice_equal_unique_keys_both_commit specUnique [] 4 7
    ⟨0, fun n => [n % 3], true⟩ (by decide) (List.mem_singleton.mpr rfl) rfl rfl
    (fun ix' h1 h2 hc => by
      obtain ⟨hp, rid, hmem⟩ := hc
      exact absurd hmem (List.not_mem_nil _))
    (fun ix' h1 h2 hc => by
      obtain ⟨hp, rid, hmem⟩ := hc
      exact absurd hmem (List.not_mem_nil _))
    (by decide)

/-! ## C6: a successful delete removes the primary row and every index entry -/

theorem dbDelete_not_mem (db : Db) (k v : Bytes) : (k, v) ∉ dbDelete db k := by
  intro hc
  rw [dbDelete, List.mem_filter] at hc
  simp at hc

theorem applyBatch_del_only_mem {db : Db} {b : List BatchEntry}
    (hd : ∀ e ∈ b, ∃ k, e = .del k) {kv : Bytes × Bytes}
    (hm : kv ∈ applyBatch db b) : kv ∈ db := by
  induction b generalizing db with
  | nil => exact hm
  | cons e rest ih =>
    obtain ⟨k', rfl⟩ := hd e (List.mem_cons_self _ _)
    have hm' : kv ∈ applyBatch (dbDelete db k') rest := hm
    exact (dbDelete_mem_elim db k'
      (ih (fun e he => hd e (List.mem_cons_of_mem _ he)) hm')).1

theorem applyBatch_del_only_not_mem {db : Db} {b : List BatchEntry}
    (hd : ∀ e ∈ b, ∃ k, e = .del k) {k : Bytes}
    (hk : BatchEntry.del k ∈ b) (v : Bytes) : (k, v) ∉ applyBatch db b := by
  induction b generalizing db with
  | nil => cases hk
  | cons e rest ih =>
    intro hc
    by_cases hr : BatchEntry.del k ∈ rest
    · obtain ⟨k', rfl⟩ := hd e (List.mem_cons_self _ _)
      have hc' : (k, v) ∈ applyBatch (dbDelete db k') rest := hc
      exact ih (fun e he => hd e (List.mem_cons_of_mem _ he)) hr hc'
    · have he : e = .del k := by
        rcases List.mem_cons.mp hk with h | h
        · exact h.symm
        · exact absurd h hr
      subst he
      have hc' : (k, v) ∈ applyBatch (dbDelete db k) rest := hc
      exact dbDelete_not_mem db k v
        (applyBatch_del_only_mem (fun e he => hd e (List.mem_cons_of_mem _ he)) hc')

/-- Decomposition of a successful `delete`: the looked-up row is returned
and the staged batch gains one delete per declared index plus the primary
delete, in that order. -/
theorem deleteOp_ok_elim {T : Type} (spec : TableSpec T) (rowId : Nat) (db : Db)
    (pipe : BatchPipe) {row : IdRow T} {pipe' : BatchPipe}
    (h : deleteOp spec rowId db pipe = (.ok row, pipe')) :
    getRowOrNotFound spec db rowId = .ok row ∧
    pipe'.batch = pipe.batch ++
      ((deleteIndexRow spec row.row rowId).map (fun kv => BatchEntry.del kv.1) ++
        [BatchEntry.del (primaryKey spec rowId)]) := by
  cases hg : getRowOrNotFound spec db rowId with
  | error e =>
    simp only [deleteOp, hg] at h
    exact absurd (congrArg Prod.fst h) (by simp)
  | ok r0 =>
    simp only [deleteOp, hg, Prod.mk.injEq, Except.ok.injEq] at h
    obtain ⟨h1, h2⟩ := h
    subst h1
    subst h2
    refine ⟨rfl, ?_⟩
    show ((deleteIndexRow spec r0.row rowId).foldl (fun p kv => p.stageDelete kv.1)
        ((pipe.addEvent (.delete spec.tableId rowId)).addEvent
          (.deleteTyped spec.tableId rowId))).batch ++
        [BatchEntry.del (primaryKey spec rowId)] =
      pipe.batch ++
        ((deleteIndexRow spec r0.row rowId).map (fun kv => BatchEntry.del kv.1) ++
          [BatchEntry.del (primaryKey spec rowId)])
    rw [foldl_stageDelete_batch]
    simp [BatchPipe.addEvent]

/-- **C6** (invariants): after `delete(id)` succeeds and its batch is
committed, the primary point lookup `get_row(id)` returns `None`, and for
every declared secondary index the probe on the deleted row's key no
longer yields `id` — all of the row's index entries are deleted in the
same batch as the primary key. -/
theorem delete_removes_primary_and_index_lookups {T : Type} (spec : TableSpec T)
    (db : Db) (rowId : Nat) (row : IdRow T) (pipe' : BatchPipe)
    (hwf : DbWF spec db)
    (hdel : deleteOp spec rowId db BatchPipe.empty = (.ok row, pipe')) :
    getRow spec (applyBatch db pipe'.batch) rowId = .ok none ∧
    ∀ ix ∈ spec.indexes,
      rowId ∉ getRowFromIndex spec (applyBatch db pipe'.batch) ix.localId
        (ix.keyBy row.row) (beBytes 8 (hash64 spec (ix.keyBy row.row))) := by
  obtain ⟨hget, hbatch⟩ := deleteOp_ok_elim spec rowId db BatchPipe.empty hdel
  rw [show BatchPipe.empty.batch = [] from rfl, List.nil_append] at hbatch
  have hdels : ∀ e ∈ pipe'.batch, ∃ k, e = .del k := by
    intro e he
    rw [hbatch] at he
    rcases List.mem_append.mp he with h | h
    · obtain ⟨kv, -, rfl⟩ := List.mem_map.mp h
      exact ⟨kv.1, rfl⟩
    · rw [List.mem_singleton] at h
      exact ⟨_, h⟩
  have hwfF : DbWF spec (applyBatch db pipe'.batch) := by
    refine applyBatch_wf spec hwf ?_
    intro e he
    obtain ⟨k, rfl⟩ := hdels e he
    trivial
  constructor
  · have hnone : dbGet (applyBatch db pipe'.batch) (primaryKey spec rowId) = none := by
      rw [dbGet_applyBatch, hbatch, batchLast_append]
      have h1 : batchLast [BatchEntry.del (primaryKey spec rowId)]
          (primaryKey spec rowId) = some none := by
        simp [batchLast]
      rw [h1]
      rfl
    simp only [getRow, hnone]
  · intro ix hix hmem
    have hes : ∀ kv ∈ dbPrefixScan (applyBatch db pipe'.batch)
        (probeStart spec ix.localId (beBytes 8 (hash64 spec (ix.keyBy row.row)))),
        (probeStart spec ix.localId
          (beBytes 8 (hash64 spec (ix.keyBy row.row)))).isPrefixOf kv.1 = true ∧
        (∀ b ∈ kv.1, b < 256) ∧ entryWF spec kv.1 kv.2 := by
      intro kv hkv
      rw [dbPrefixScan, List.mem_filter] at hkv
      exact ⟨hkv.2, (hwfF kv hkv.1).1, (hwfF kv hkv.1).2⟩
    rw [getRowFromIndex_eq_collect spec _ ix.localId _ _ (by simp),
      collectIndexRowIds_block spec ix.localId _ _ (by simp) _ hes] at hmem
    obtain ⟨kv, hkvmem, hrid⟩ := List.mem_map.mp hmem
    rw [List.mem_filter] at hkvmem
    obtain ⟨hscan, hval⟩ := hkvmem
    obtain ⟨k, v⟩ := kv
    simp only [beq_iff_eq] at hval
    subst hval
    rw [dbPrefixScan, List.mem_filter] at hscan
    obtain ⟨hmemF, hpfx⟩ := hscan
    obtain ⟨t, hk, htlen, -⟩ :=
      block_entry_shape spec ix.localId _ (by simp) k _ hpfx (hwfF _ hmemF).2
    have hdrop : k.drop 13 = t := by
      rw [hk]
      exact drop_append_len _ _ 13 (by simp [probeStart])
    rw [hdrop] at hrid
    have ht : t = beBytes 8 rowId := by
      rw [← hrid]
      refine (beBytes_fromBe t 8 htlen ?_).symm
      intro b hb
      apply (hwfF _ hmemF).1
      rw [hk]
      exact List.mem_append_right _ hb
    have hkey : k = indexEntryKey spec ix (hash64 spec (ix.keyBy row.row)) rowId := by
      rw [hk, ht]
      simp [probeStart, indexEntryKey, RowKey.toBytes, List.append_assoc]
    have hdelmem : BatchEntry.del k ∈ pipe'.batch := by
      rw [hbatch, hkey]
      apply List.mem_append_left
      rw [List.mem_map]
      refine ⟨(indexEntryKey spec ix (hash64 spec (ix.keyBy row.row)) rowId, []), ?_, rfl⟩
      rw [deleteIndexRow, List.mem_map]
      exact ⟨ix, hix, rfl⟩
    exact applyBatch_del_only_not_mem hdels hdelmem _ hmemF

/-- A one-row committed store for `specUnique`: the primary entry of row
`4` at id `1` and its single secondary-index entry. -/
def c6Db : Db :=
  [(primaryKey specUnique 1, natSer 4),
   (indexEntryKey specUnique ⟨0, fun n => [n % 3], true⟩
      (hash64 specUnique [4 % 3]) 1, [4 % 3])]

theorem delete_removes_primary_and_index_lookups_witness :
    getRow specUnique
        (applyBatch c6Db (deleteOp specUnique 1 c6Db BatchPipe.empty).2.batch) 1 =
      .ok none ∧
    ∀ ix ∈ specUnique.indexes,
      1 ∉ getRowFromIndex specUnique
        (applyBatch c6Db (deleteOp specUnique 1 c6Db BatchPipe.empty).2.batch) ix.localId
        (ix.keyBy 4) (beBytes 8 (hash64 specUnique (ix.keyBy 4))) :=
  delete_removes_primary_and_index_lookups specUnique c6Db 1 ⟨1, 4⟩
    (deleteOp specUnique 1 c6Db BatchPipe.empty).2 (by decide) rfl

/-! ## C8: add_job is idempotent modulo (row_reference, job_type) -/

/-- A successful `insert` commits its own secondary-index entry for every
declared index: the staged put of index `ix` survives the later puts of
the same batch because distinct declared indexes stage distinct keys. -/
theorem insert_commits_index_entry {T : Type} (spec : TableSpec T) (hspec : spec.WF)
    {row : T} {db : Db} {idr : IdRow T} {db₁ : Db} {pipe₁ : BatchPipe}
    (hins : insertOp spec row db BatchPipe.empty = (.ok idr, db₁, pipe₁))
    {ix : SecondaryIndexSpec T} (hmem : ix ∈ spec.indexes) :
    ((RowKey.SecondaryIndex (indexIdOf spec ix.localId)
        (beBytes 8 (hash64 spec (ix.keyBy row))) idr.id).toBytes, ix.keyBy row)
      ∈ applyBatch db₁ pipe₁.batch := by
  obtain ⟨-, -, hdb, hbatch, -⟩ := insertOp_ok_elim spec row db BatchPipe.empty hins
  obtain ⟨l₁, l₂, hsplit⟩ := List.append_of_mem hmem
  rw [hbatch]
  have hpair := hspec.2
  rw [hsplit] at hpair
  have hcross : ∀ b ∈ l₂, ix.localId ≠ b.localId :=
    (List.pairwise_cons.mp (List.pairwise_append.mp hpair).2.1).1
  have hbounds : ∀ b ∈ l₂, b.localId ≤ 99 := fun b hb =>
    hspec.1 b (by rw [hsplit]; exact List.mem_append_right _ (List.mem_cons_of_mem _ hb))
  have hbix : ix.localId ≤ 99 := hspec.1 ix hmem
  simp only [BatchPipe.empty, List.nil_append, insertIndexRow, hsplit, List.map_append,
    List.map_cons, List.map_map, Function.comp]
  rw [← List.cons_append]
  exact applyBatch_mem_of_put_last db₁ _ _ _ _ (by
    intro e he
    simp only [List.mem_map, Function.comp] at he
    obtain ⟨ix', hix', rfl⟩ := he
    simp only [BatchEntry.keyOf]
    exact indexEntryKey_ne spec ix' ix _ _ _ _ (hbounds ix' hix') hbix
      fun hc => hcross ix' hix' hc.symm)

/-- Modelled from the spec: `add_job` (the `Job` entity and its
`RowReference` secondary index live in `metastore/job.rs`, which is not
in the tree).  The job table is a `TableSpec` with a distinguished index
`jx` whose extracted key plays `(row_reference, job_type)`; the dedup
probe `get_row_ids_by_index` (in `mod.rs`) hashes the encoded key and
runs the committed-store index scan `get_row_from_index`; when it yields
any id, `add_job` returns `Ok(None)` without staging anything, otherwise
it inserts the job and returns `Ok(Some(id_row))`. -/
def addJob {T : Type} (spec : TableSpec T) (jx : SecondaryIndexSpec T) (job : T)
    (db : Db) (pipe : BatchPipe) :
    Except CubeErr (Option (IdRow T)) × Db × BatchPipe :=
  if 0 < (getRowFromIndex spec db jx.localId (jx.keyBy job)
      (beBytes 8 (hash64 spec (jx.keyBy job)))).length then
    (.ok none, db, pipe)
  else
    match insertOp spec job db pipe with
    | (.ok idr, db', pipe') => (.ok (some idr), db', pipe')
    | (.error e, db', pipe') => (.error e, db', pipe')

/-- **C8** (algebraic/relational): `add_job` is idempotent modulo the
`(row_reference, job_type)` key.  When the committed store already holds
a `RowReference` index entry for the job's key, `add_job` returns `None`
and stages nothing; when the key is fresh and the insert goes through,
`add_job` returns `Some` of the inserted row, the row is committed, and a
second `add_job` with the same key returns `None` and changes nothing —
adding the same job twice yields exactly one stored row and one skipped
result. -/
theorem add_job_idempotent_modulo_row_reference {T : Type} (spec : TableSpec T)
    (jx : SecondaryIndexSpec T) (hspec : spec.WF) (hjx : jx ∈ spec.indexes) :
    (∀ db pipe job, DbWF spec db → hasConflictingEntry spec db jx job →
      addJob spec jx job db pipe = (.ok none, db, pipe)) ∧
    (∀ db job job' idr db₁ pipe₁ pipe', DbWF spec db →
      ¬ hasConflictingEntry spec db jx job →
      jx.keyBy job' = jx.keyBy job →
      insertOp spec job db BatchPipe.empty = (.ok idr, db₁, pipe₁) →
      addJob spec jx job db BatchPipe.empty = (.ok (some idr), db₁, pipe₁) ∧
      dbGet (applyBatch db₁ pipe₁.batch) (primaryKey spec idr.id) =
        some (spec.ser job) ∧
      addJob spec jx job' (applyBatch db₁ pipe₁.batch) pipe' =
        (.ok none, applyBatch db₁ pipe₁.batch, pipe')) := by
  have hskip : ∀ db pipe job, DbWF spec db → hasConflictingEntry spec db jx job →
      addJob spec jx job db pipe = (.ok none, db, pipe) := by
    intro db pipe job hwf hconf
    have hne : getRowFromIndex spec db jx.localId (jx.keyBy job)
        (beBytes 8 (hash64 spec (jx.keyBy job))) ≠ [] :=
      (getRowFromIndex_ne_nil_iff spec db hwf jx.localId (jx.keyBy job)).mpr hconf
    unfold addJob
    rw [if_pos (List.length_pos.mpr hne)]
  refine ⟨hskip, ?_⟩
  intro db job job' idr db₁ pipe₁ pipe' hwf hnc hkeys hinsert
  have hnil : getRowFromIndex spec db jx.localId (jx.keyBy job)
      (beBytes 8 (hash64 spec (jx.keyBy job))) = [] := by
    by_contra hne
    exact hnc ((getRowFromIndex_ne_nil_iff spec db hwf jx.localId (jx.keyBy job)).mp hne)
  refine ⟨?_, ?_, ?_⟩
  · unfold addJob
    rw [if_neg (by rw [hnil]; simp), hinsert]
  · obtain ⟨-, -, hdb, hbatch, -⟩ := insertOp_ok_elim spec job db BatchPipe.empty hinsert
    rw [dbGet_applyBatch, hbatch, show BatchPipe.empty.batch = [] from rfl,
      List.nil_append]
    have h1 : batchLast (BatchEntry.put (primaryKey spec idr.id) (spec.ser job) ::
        (insertIndexRow spec job idr.id).map (fun kv => BatchEntry.put kv.1 kv.2))
        (primaryKey spec idr.id) = some (some (spec.ser job)) := by
      simp only [batchLast, batchLast_indexPuts_primary]
      simp
    rw [h1]
    rfl
  · have hwf₂ := insertOp_commit_wf spec job db hwf hinsert
    have hconf₂ : hasConflictingEntry spec (applyBatch db₁ pipe₁.batch) jx job' := by
      unfold hasConflictingEntry
      rw [hkeys]
      exact ⟨beBytes 8 (hash64 spec (jx.keyBy job)), idr.id,
        insert_commits_index_entry spec hspec hinsert hjx⟩
    exact hskip (applyBatch db₁ pipe₁.batch) pipe' job' hwf₂ hconf₂

theorem add_job_idempotent_modulo_row_reference_witness :
    addJob specUnique ⟨0, fun n => [n % 3], true⟩ 4 [] BatchPipe.empty =
      (.ok (some ⟨1, 4⟩), (insertOp specUnique 4 [] BatchPipe.empty).2.1,
        (insertOp specUnique 4 [] BatchPipe.empty).2.2) ∧
    dbGet (applyBatch (insertOp specUnique 4 [] BatchPipe.empty).2.1
        (insertOp specUnique 4 [] BatchPipe.empty).2.2.batch)
      (primaryKey specUnique 1) = some (specUnique.ser 4) ∧
    addJob specUnique ⟨0, fun n => [n % 3], true⟩ 7
        (applyBatch (insertOp specUnique 4 [] BatchPipe.empty).2.1
          (insertOp specUnique 4 [] BatchPipe.empty).2.2.batch) BatchPipe.empty =
      (.ok none, applyBatch (insertOp specUnique 4 [] BatchPipe.empty).2.1
        (insertOp specUnique 4 [] BatchPipe.empty).2.2.batch, BatchPipe.empty) :=
  (add_job_idempotent_modulo_row_reference specUnique ⟨0, fun n => [n % 3], true⟩
      ⟨by decide, List.pairwise_singleton _ _⟩ (List.mem_singleton.mpr rfl)).2
    [] 4 7 ⟨1, 4⟩ (insertOp specUnique 4 [] BatchPipe.empty).2.1
    (insertOp specUnique 4 [] BatchPipe.empty).2.2 BatchPipe.empty
    (by decide)
    (fun hc => by
      obtain ⟨hp, rid, hmem⟩ := hc
      exact absurd hmem (List.not_mem_nil _))
    rfl rfl

/-! ## C4: swap_active_partitions

The `Partition` and `Chunk` entities live in `metastore/partition.rs` and
`metastore/chunk.rs`, which are not in the tree; they are modelled from
the spec (§3: Partition carries `index_id`, optional parent, optional
`min_value`/`max_value` row tuples, `active`, `main_table_row_count`;
Chunk carries `partition_id`, `row_count`, `uploaded`, `active`).  Row
tuples (`crate::table::Row`) are opaque payloads, modelled as `Nat`. -/

structure Partition where
  indexId : Nat
  parentPartitionId : Option Nat
  minValue : Option Nat
  maxValue : Option Nat
  active : Bool
  mainTableRowCount : Nat
deriving DecidableEq, Repr

/-- Modelled from the spec: `Partition::to_active` returns a copy with
the `active` flag replaced. -/
def Partition.toActive (p : Partition) (a : Bool) : Partition :=
  { p with active := a }

/-- Modelled from the spec: `Partition::update_min_max_and_row_count`
returns a copy with `(min_value, max_value, main_table_row_count)`
replaced. -/
def Partition.updateMinMaxAndRowCount (p : Partition)
    (mn mx : Option Nat) (count : Nat) : Partition :=
  { p with minValue := mn, maxValue := mx, mainTableRowCount := count }

structure Chunk where
  partitionId : Nat
  rowCount : Nat
  uploaded : Bool
  active : Bool
deriving DecidableEq, Repr

/-- Modelled from the spec: `Chunk::deactivate` clears the `active`
flag. -/
def Chunk.deactivate (c : Chunk) : Chunk :=
  { c with active := false }

/-- The batch entries staged by one `update` (old index-entry deletes,
the primary put of the new row, the new index-entry puts, in order). -/
def updateBatch {T : Type} (spec : TableSpec T) (rowId : Nat) (newRow oldRow : T) :
    List BatchEntry :=
  (deleteIndexRow spec oldRow rowId).map (fun kv => BatchEntry.del kv.1) ++
    BatchEntry.put (primaryKey spec rowId) (spec.ser newRow) ::
      (insertIndexRow spec newRow rowId).map (fun kv => BatchEntry.put kv.1 kv.2)

theorem updateOp_batch {T : Type} (spec : TableSpec T) (rowId : Nat)
    (newRow oldRow : T) (pipe : BatchPipe) :
    (updateOp spec rowId newRow oldRow pipe).2.batch =
      pipe.batch ++ updateBatch spec rowId newRow oldRow := by
  unfold updateOp updateBatch
  rw [foldl_stagePut_batch]
  simp only [BatchPipe.stagePut, BatchPipe.addEvent, foldl_stageDelete_batch]
  simp [List.append_assoc]

theorem updateOp_fst {T : Type} (spec : TableSpec T) (rowId : Nat)
    (newRow oldRow : T) (pipe : BatchPipe) :
    (updateOp spec rowId newRow oldRow pipe).1 = ⟨rowId, newRow⟩ := by
  unfold updateOp
  rfl

/-- Keys of the two tables' primary rows differ when the table ids do. -/
theorem primaryKey_ne_cross {T U : Type} (specA : TableSpec T) (specB : TableSpec U)
    (a b : Nat) (h : specA.tableId ≠ specB.tableId) :
    primaryKey specA a ≠ primaryKey specB b := by
  intro hc
  simp only [primaryKey, RowKey.toBytes, List.cons.injEq, List.append_assoc] at hc
  have h4 := congrArg (List.take 4) hc.2
  rw [take_append_len _ _ 4 (by simp), take_append_len _ _ 4 (by simp)] at h4
  have ha := specA.tableId.toNat_lt
  have hb := specB.tableId.toNat_lt
  rw [← pow256_four] at ha hb
  have heq := beBytes_injOn 4 _ _ ha hb h4
  have := congrArg TableId.fromNat? heq
  rw [TableId.fromNat?_toNat, TableId.fromNat?_toNat, Option.some.injEq] at this
  exact h this

/-- A secondary-index entry key never equals a primary key, across any
two tables (first byte 3 vs 1). -/
theorem indexEntryKey_ne_primaryKey_cross {T U : Type} (specA : TableSpec T)
    (specB : TableSpec U) (ix : SecondaryIndexSpec T) (h r rid : Nat) :
    indexEntryKey specA ix h r ≠ primaryKey specB rid := by
  intro hc
  simp [indexEntryKey, primaryKey, RowKey.toBytes] at hc

theorem batchLast_updateBatch_ne {T U : Type} (spec2 : TableSpec T)
    (spec : TableSpec U) (id2 : Nat) (new old : T) (id : Nat)
    (hne : primaryKey spec2 id2 ≠ primaryKey spec id) :
    batchLast (updateBatch spec2 id2 new old) (primaryKey spec id) = none := by
  apply batchLast_eq_none
  intro e he
  unfold updateBatch at he
  rcases List.mem_append.mp he with h | h
  · obtain ⟨kv, hkv, rfl⟩ := List.mem_map.mp h
    simp only [deleteIndexRow, List.mem_map] at hkv
    obtain ⟨ix, hix, rfl⟩ := hkv
    exact indexEntryKey_ne_primaryKey_cross spec2 spec ix _ _ _
  · rcases List.mem_cons.mp h with rfl | h
    · exact hne
    · obtain ⟨kv, hkv, rfl⟩ := List.mem_map.mp h
      simp only [insertIndexRow, List.mem_map] at hkv
      obtain ⟨ix, hix, rfl⟩ := hkv
      exact indexEntryKey_ne_primaryKey_cross spec2 spec ix _ _ _

theorem batchLast_updateBatch_self {T : Type} (spec : TableSpec T) (id : Nat)
    (new old : T) :
    batchLast (updateBatch spec id new old) (primaryKey spec id) =
      some (some (spec.ser new)) := by
  unfold updateBatch
  rw [batchLast_append]
  have h1 : batchLast (BatchEntry.put (primaryKey spec id) (spec.ser new) ::
      (insertIndexRow spec new id).map (fun kv => BatchEntry.put kv.1 kv.2))
      (primaryKey spec id) = some (some (spec.ser new)) := by
    simp only [batchLast, batchLast_indexPuts_primary]
    simp
  rw [h1]

/-- The concatenated batch staged by a loop, one segment per element. -/
def segBatch {A : Type} (seg : A → List BatchEntry) : List A → List BatchEntry
  | [] => []
  | a :: rest => seg a ++ segBatch seg rest

theorem batchLast_segBatch_none {A : Type} (seg : A → List BatchEntry) (l : List A)
    (k : Bytes) (h : ∀ a ∈ l, batchLast (seg a) k = none) :
    batchLast (segBatch seg l) k = none := by
  induction l with
  | nil => rfl
  | cons a rest ih =>
    show batchLast (seg a ++ segBatch seg rest) k = none
    rw [batchLast_append, ih fun b hb => h b (List.mem_cons_of_mem _ hb),
      h a (List.mem_cons_self _ _)]

theorem batchLast_segBatch_some {A : Type} (seg : A → List BatchEntry) (l : List A)
    (k : Bytes) (v : Option Bytes) (hex : ∃ a ∈ l, batchLast (seg a) k = some v)
    (hall : ∀ a ∈ l, batchLast (seg a) k = none ∨ batchLast (seg a) k = some v) :
    batchLast (segBatch seg l) k = some v := by
  induction l with
  | nil => obtain ⟨a, ha, -⟩ := hex; cases ha
  | cons a rest ih =>
    show batchLast (seg a ++ segBatch seg rest) k = some v
    rw [batchLast_append]
    by_cases hr : ∃ b ∈ rest, batchLast (seg b) k = some v
    · rw [ih hr fun b hb => hall b (List.mem_cons_of_mem _ hb)]
    · have hrest : batchLast (segBatch seg rest) k = none := by
        apply batchLast_segBatch_none
        intro b hb
        rcases hall b (List.mem_cons_of_mem _ hb) with h | h
        · exact h
        · exact absurd ⟨b, hb, h⟩ hr
      rw [hrest]
      obtain ⟨a', ha', hsa⟩ := hex
      rcases List.mem_cons.mp ha' with rfl | hmem
      · rw [hsa]
      · exact absurd ⟨a', hmem, hsa⟩ hr

/-- The row stored at `id`, when the primary lookup succeeds. -/
def rowOf {T : Type} (spec : TableSpec T) (db : Db) (id : Nat) : Option T :=
  match getRow spec db id with
  | .ok (some idr) => some idr.row
  | _ => none

/-- The first loop of `swap_active_partitions`: look up each current
partition in the committed store, fail with an internal ("invalid
state") error when it is missing or not active, otherwise stage the
update to its inactive copy. -/
def swapCurrentLoop (specP : TableSpec Partition) (db : Db) :
    List Nat → BatchPipe → Except CubeErr BatchPipe
  | [], pipe => .ok pipe
  | cur :: rest, pipe =>
    match getRow specP db cur with
    | .error e => .error e
    | .ok none => .error (.internal "Current partition is not found during swap active")
    | .ok (some idr) =>
      if idr.row.active = true then
        swapCurrentLoop specP db rest
          (updateOp specP cur (idr.row.toActive false) idr.row pipe).2
      else .error (.internal "Current partition is not active")

/-- The second loop: for each `(new_id, (count, (min, max)))` pair of
`new_active.zip(new_active_min_max)`, fail when the partition is missing
or already active, otherwise stage the update to its active copy with
the new min/max/row count. -/
def swapNewLoop (specP : TableSpec Partition) (db : Db) :
    List (Nat × Nat × Option Nat × Option Nat) → BatchPipe → Except CubeErr BatchPipe
  | [], pipe => .ok pipe
  | (new, count, mn, mx) :: rest, pipe =>
    match getRow specP db new with
    | .error e => .error e
    | .ok none => .error (.internal "New partition is not found during swap active")
    | .ok (some idr) =>
      if idr.row.active = true then .error (.internal "New partition is already active")
      else
        swapNewLoop specP db rest
          (updateOp specP new ((idr.row.toActive true).updateMinMaxAndRowCount mn mx count)
            idr.row pipe).2

/-- The third loop: deactivate every compacted chunk via
`update_with_fn`. -/
def swapChunkLoop (specC : TableSpec Chunk) (db : Db) :
    List Nat → BatchPipe → Except CubeErr BatchPipe
  | [], pipe => .ok pipe
  | cid :: rest, pipe =>
    match updateWithFn specC cid (fun c => c.deactivate) db pipe with
    | (.error e, _) => .error e
    | (.ok _, pipe') => swapChunkLoop specC db rest pipe'

/-- The `swap_active_partitions` closure body: the three loops in order,
every read against the committed store, every mutation staged; each
failure aborts the closure (the store component of the result is the
input store — the closure performs no direct engine writes). -/
def swapActivePartitions (specP : TableSpec Partition) (specC : TableSpec Chunk)
    (currentActive newActive compactedChunkIds : List Nat)
    (newActiveMinMax : List (Nat × Option Nat × Option Nat)) :
    Db → BatchPipe → Except CubeErr Unit × Db × BatchPipe :=
  fun db pipe =>
    match swapCurrentLoop specP db currentActive pipe with
    | .error e => (.error e, db, pipe)
    | .ok pipe1 =>
      match swapNewLoop specP db (newActive.zip newActiveMinMax) pipe1 with
      | .error e => (.error e, db, pipe)
      | .ok pipe2 =>
        match swapChunkLoop specC db compactedChunkIds pipe2 with
        | .error e => (.error e, db, pipe)
        | .ok pipe3 => (.ok (), db, pipe3)

/-- The per-element batch segment of the current-partition loop. -/
def curSeg (specP : TableSpec Partition) (db : Db) (id : Nat) : List BatchEntry :=
  match rowOf specP db id with
  | some p => updateBatch specP id (p.toActive false) p
  | none => []

/-- The per-element batch segment of the new-partition loop. -/
def newSeg (specP : TableSpec Partition) (db : Db)
    (pr : Nat × Nat × Option Nat × Option Nat) : List BatchEntry :=
  match rowOf specP db pr.1 with
  | some p => updateBatch specP pr.1
      ((p.toActive true).updateMinMaxAndRowCount pr.2.2.1 pr.2.2.2 pr.2.1) p
  | none => []

/-- The per-element batch segment of the chunk loop. -/
def chunkSeg (specC : TableSpec Chunk) (db : Db) (cid : Nat) : List BatchEntry :=
  match rowOf specC db cid with
  | some c => updateBatch specC cid c.deactivate c
  | none => []

theorem swapCurrentLoop_ok (specP : TableSpec Partition) (db : Db) (l : List Nat)
    (pipe : BatchPipe)
    (h : ∀ id ∈ l, ∃ p : Partition,
      getRow specP db id = .ok (some ⟨id, p⟩) ∧ p.active = true) :
    ∃ pipe', swapCurrentLoop specP db l pipe = .ok pipe' ∧
      pipe'.batch = pipe.batch ++ segBatch (curSeg specP db) l := by
  induction l generalizing pipe with
  | nil => exact ⟨pipe, rfl, by simp [segBatch]⟩
  | cons id rest ih =>
    obtain ⟨p, hget, hact⟩ := h id (List.mem_cons_self _ _)
    obtain ⟨pipe', hrun, hbatch⟩ :=
      ih (updateOp specP id (p.toActive false) p pipe).2
        fun b hb => h b (List.mem_cons_of_mem _ hb)
    refine ⟨pipe', ?_, ?_⟩
    · show (match getRow specP db id with
        | Except.error e => Except.error e
        | Except.ok none =>
          Except.error (CubeErr.internal "Current partition is not found during swap active")
        | Except.ok (some idr) =>
          if idr.row.active = true then
            swapCurrentLoop specP db rest
              (updateOp specP id (idr.row.toActive false) idr.row pipe).2
          else Except.error (CubeErr.internal "Current partition is not active")) =
        Except.ok pipe'
      rw [hget]
      show (if p.active = true then _ else _) = _
      rw [if_pos hact]
      exact hrun
    · rw [hbatch, updateOp_batch]
      show _ = pipe.batch ++ (curSeg specP db id ++ segBatch (curSeg specP db) rest)
      have hseg : curSeg specP db id = updateBatch specP id (p.toActive false) p := by
        unfold curSeg rowOf
        rw [hget]
      rw [hseg, List.append_assoc]

theorem swapNewLoop_ok (specP : TableSpec Partition) (db : Db)
    (l : List (Nat × Nat × Option Nat × Option Nat)) (pipe : BatchPipe)
    (h : ∀ pr ∈ l, ∃ p : Partition,
      getRow specP db pr.1 = .ok (some ⟨pr.1, p⟩) ∧ p.active = false) :
    ∃ pipe', swapNewLoop specP db l pipe = .ok pipe' ∧
      pipe'.batch = pipe.batch ++ segBatch (newSeg specP db) l := by
  induction l generalizing pipe with
  | nil => exact ⟨pipe, rfl, by simp [segBatch]⟩
  | cons pr rest ih =>
    obtain ⟨p, hget, hact⟩ := h pr (List.mem_cons_self _ _)
    obtain ⟨id, count, mn, mx⟩ := pr
    obtain ⟨pipe', hrun, hbatch⟩ :=
      ih (updateOp specP id ((p.toActive true).updateMinMaxAndRowCount mn mx count)
          p pipe).2
        fun b hb => h b (List.mem_cons_of_mem _ hb)
    refine ⟨pipe', ?_, ?_⟩
    · show (match getRow specP db id with
        | Except.error e => Except.error e
        | Except.ok none =>
          Except.error (CubeErr.internal "New partition is not found during swap active")
        | Except.ok (some idr) =>
          if idr.row.active = true then
            Except.error (CubeErr.internal "New partition is already active")
          else
            swapNewLoop specP db rest
              (updateOp specP id
                ((idr.row.toActive true).updateMinMaxAndRowCount mn mx count)
                idr.row pipe).2) = Except.ok pipe'
      rw [hget]
      show (if p.active = true then _ else _) = _
      rw [if_neg (by rw [hact]; exact Bool.false_ne_true)]
      exact hrun
    · rw [hbatch, updateOp_batch]
      show _ = pipe.batch ++
        (newSeg specP db (id, count, mn, mx) ++ segBatch (newSeg specP db) rest)
      have hseg : newSeg specP db (id, count, mn, mx) =
          updateBatch specP id ((p.toActive true).updateMinMaxAndRowCount mn mx count) p := by
        unfold newSeg rowOf
        rw [hget]
      rw [hseg, List.append_assoc]

theorem updateWithFn_ok {T : Type} (spec : TableSpec T) (id : Nat) (f : T → T)
    (db : Db) (pipe : BatchPipe) (c : T)
    (hget : getRow spec db id = .ok (some ⟨id, c⟩)) :
    updateWithFn spec id f db pipe =
      (.ok ⟨id, f c⟩, (updateOp spec id (f c) c pipe).2) := by
  unfold updateWithFn getRowOrNotFound
  rw [hget]
  show (Except.ok (updateOp spec id (f c) c pipe).1, (updateOp spec id (f c) c pipe).2) = _
  rw [updateOp_fst]

theorem swapChunkLoop_ok (specC : TableSpec Chunk) (db : Db) (l : List Nat)
    (pipe : BatchPipe)
    (h : ∀ cid ∈ l, ∃ c : Chunk, getRow specC db cid = .ok (some ⟨cid, c⟩)) :
    ∃ pipe', swapChunkLoop specC db l pipe = .ok pipe' ∧
      pipe'.batch = pipe.batch ++ segBatch (chunkSeg specC db) l := by
  induction l generalizing pipe with
  | nil => exact ⟨pipe, rfl, by simp [segBatch]⟩
  | cons cid rest ih =>
    obtain ⟨c, hget⟩ := h cid (List.mem_cons_self _ _)
    obtain ⟨pipe', hrun, hbatch⟩ :=
      ih (updateOp specC cid c.deactivate c pipe).2
        fun b hb => h b (List.mem_cons_of_mem _ hb)
    refine ⟨pipe', ?_, ?_⟩
    · show (match updateWithFn specC cid (fun c => c.deactivate) db pipe with
        | (Except.error e, _) => Except.error e
        | (Except.ok _, pipe') => swapChunkLoop specC db rest pipe') = Except.ok pipe'
      rw [updateWithFn_ok specC cid _ db pipe c hget]
      exact hrun
    · rw [hbatch, updateOp_batch]
      show _ = pipe.batch ++ (chunkSeg specC db cid ++ segBatch (chunkSeg specC db) rest)
      have hseg : chunkSeg specC db cid = updateBatch specC cid c.deactivate c := by
        unfold chunkSeg rowOf
        rw [hget]
      rw [hseg, List.append_assoc]

theorem swapActivePartitions_db (specP : TableSpec Partition) (specC : TableSpec Chunk)
    (cA nA cI : List Nat) (mm : List (Nat × Option Nat × Option Nat))
    (db : Db) (pipe : BatchPipe) :
    (swapActivePartitions specP specC cA nA cI mm db pipe).2.1 = db := by
  rcases h1 : swapCurrentLoop specP db cA pipe with e | p1
  · simp only [swapActivePartitions, h1]
  · rcases h2 : swapNewLoop specP db (nA.zip mm) p1 with e | p2
    · simp only [swapActivePartitions, h1, h2]
    · rcases h3 : swapChunkLoop specC db cI p2 with e | p3
      · simp only [swapActivePartitions, h1, h2, h3]
      · simp only [swapActivePartitions, h1, h2, h3]

theorem idrow_eq_of_getRow {T : Type} {spec : TableSpec T} {db : Db} {id : Nat}
    {p q : T} (h1 : getRow spec db id = .ok (some ⟨id, p⟩))
    (h2 : getRow spec db id = .ok (some ⟨id, q⟩)) : p = q := by
  have h := h1.symm.trans h2
  simpa using h

theorem mem_eq_of_map_nodup {A B : Type} (f : A → B) (l : List A)
    (h : (l.map f).Nodup) {a b : A} (ha : a ∈ l) (hb : b ∈ l) (hf : f a = f b) :
    a = b := by
  induction l with
  | nil => cases ha
  | cons x rest ih =>
    rw [List.map_cons, List.nodup_cons] at h
    rcases List.mem_cons.mp ha with rfl | ha' <;> rcases List.mem_cons.mp hb with rfl | hb'
    · rfl
    · exact absurd (by rw [hf]; exact List.mem_map_of_mem f hb') h.1
    · exact absurd (by rw [← hf]; exact List.mem_map_of_mem f ha') h.1
    · exact ih h.2 ha' hb'

/-- **C4** (error handling): `swap_active_partitions` demands that every
current id name an existing active partition, every zipped new id an
existing inactive partition, and every compacted chunk id an existing
chunk; on success — all in one committed batch — each current partition
is flipped inactive, each new partition is flipped active with
min/max/row-count taken from its pairwise entry of
`new_active_min_max`, and each listed chunk is deactivated; on any
failure the operation aborts with an error (the invalid-state /
internal error of the precondition checks) and the store is unchanged —
the closure stages everything in the batch and performs no direct
engine write, so the discarded batch leaves no trace. -/
theorem swap_active_partitions_effects_and_atomicity
    (specP : TableSpec Partition) (specC : TableSpec Chunk)
    (hPT : specP.tableId ≠ specC.tableId) :
    (∀ db cA nA cI mm e,
      (writeOperation db (swapActivePartitions specP specC cA nA cI mm)).1 =
        .error e →
      (writeOperation db (swapActivePartitions specP specC cA nA cI mm)).2 = db) ∧
    (∀ db cA nA cI (mm : List (Nat × Option Nat × Option Nat)),
      (∀ id ∈ cA, ∃ p : Partition,
        getRow specP db id = .ok (some ⟨id, p⟩) ∧ p.active = true) →
      (∀ pr ∈ nA.zip mm, ∃ p : Partition,
        getRow specP db pr.1 = .ok (some ⟨pr.1, p⟩) ∧ p.active = false) →
      (∀ cid ∈ cI, ∃ c : Chunk, getRow specC db cid = .ok (some ⟨cid, c⟩)) →
      (∀ id ∈ cA, id < 2 ^ 64) → (∀ pr ∈ nA.zip mm, pr.1 < 2 ^ 64) →
      (∀ cid ∈ cI, cid < 2 ^ 64) → ((nA.zip mm).map Prod.fst).Nodup →
      ∃ events dbF,
        writeOperation db (swapActivePartitions specP specC cA nA cI mm) =
          (.ok ((), events), dbF) ∧
        (∀ id p, id ∈ cA → getRow specP db id = .ok (some ⟨id, p⟩) →
          dbGet dbF (primaryKey specP id) = some (specP.ser (p.toActive false))) ∧
        (∀ pr p, pr ∈ nA.zip mm → getRow specP db pr.1 = .ok (some ⟨pr.1, p⟩) →
          dbGet dbF (primaryKey specP pr.1) = some (specP.ser
            ((p.toActive true).updateMinMaxAndRowCount pr.2.2.1 pr.2.2.2 pr.2.1))) ∧
        (∀ cid c, cid ∈ cI → getRow specC db cid = .ok (some ⟨cid, c⟩) →
          dbGet dbF (primaryKey specC cid) = some (specC.ser c.deactivate))) := by
  constructor
  · intro db cA nA cI mm e herr
    have hdb := swapActivePartitions_db specP specC cA nA cI mm db BatchPipe.empty
    rcases hf : swapActivePartitions specP specC cA nA cI mm db BatchPipe.empty
      with ⟨res, db', pipe'⟩
    rw [hf] at hdb
    have hdb' : db' = db := hdb
    cases res with
    | error e' =>
      simp only [writeOperation, hf]
      exact hdb'
    | ok r =>
      simp only [writeOperation, hf] at herr
      exact absurd herr (by simp)
  · intro db cA nA cI mm hcur hnew hchunk hbc hbn hbk hnodup
    obtain ⟨P1, hrun1, hb1⟩ := swapCurrentLoop_ok specP db cA BatchPipe.empty hcur
    obtain ⟨P2, hrun2, hb2⟩ := swapNewLoop_ok specP db (nA.zip mm) P1 hnew
    obtain ⟨P3, hrun3, hb3⟩ := swapChunkLoop_ok specC db cI P2 hchunk
    have hbody : swapActivePartitions specP specC cA nA cI mm db BatchPipe.empty =
        (.ok (), db, P3) := by
      simp only [swapActivePartitions, hrun1, hrun2, hrun3]
    have hwrite : writeOperation db (swapActivePartitions specP specC cA nA cI mm) =
        (.ok ((), P3.events), applyBatch db P3.batch) := by
      simp only [writeOperation, hbody]
    have hB : P3.batch = segBatch (curSeg specP db) cA ++
        (segBatch (newSeg specP db) (nA.zip mm) ++ segBatch (chunkSeg specC db) cI) := by
      rw [hb3, hb2, hb1, show BatchPipe.empty.batch = [] from rfl, List.nil_append,
        List.append_assoc]
    refine ⟨P3.events, applyBatch db P3.batch, hwrite, ?_, ?_, ?_⟩
    · intro id p hid hget
      rw [dbGet_applyBatch, hB, batchLast_append]
      have hnewnone : batchLast (segBatch (newSeg specP db) (nA.zip mm))
          (primaryKey specP id) = none := by
        apply batchLast_segBatch_none
        intro pr hpr
        obtain ⟨p', hget', hact'⟩ := hnew pr hpr
        have hseg : newSeg specP db pr = updateBatch specP pr.1
            ((p'.toActive true).updateMinMaxAndRowCount pr.2.2.1 pr.2.2.2 pr.2.1) p' := by
          unfold newSeg rowOf
          rw [hget']
        rw [hseg]
        apply batchLast_updateBatch_ne
        intro hc
        have hpr1 : pr.1 = id := primaryKey_inj specP _ _ (hbn pr hpr) (hbc id hid) hc
        rw [hpr1] at hget'
        obtain ⟨p0, hget0, hact0⟩ := hcur id hid
        have := idrow_eq_of_getRow hget' hget0
        rw [this] at hact'
        rw [hact'] at hact0
        exact Bool.false_ne_true hact0
      have hchunknone : batchLast (segBatch (chunkSeg specC db) cI)
          (primaryKey specP id) = none := by
        apply batchLast_segBatch_none
        intro cid hcid
        obtain ⟨c, hgetc⟩ := hchunk cid hcid
        have hseg : chunkSeg specC db cid = updateBatch specC cid c.deactivate c := by
          unfold chunkSeg rowOf
          rw [hgetc]
        rw [hseg]
        exact batchLast_updateBatch_ne specC specP cid _ _ id
          (primaryKey_ne_cross specC specP cid id fun hc => hPT hc.symm)
      rw [batchLast_append, hnewnone, hchunknone]
      have hcurlast : batchLast (segBatch (curSeg specP db) cA) (primaryKey specP id) =
          some (some (specP.ser (p.toActive false))) := by
        apply batchLast_segBatch_some
        · refine ⟨id, hid, ?_⟩
          have hseg : curSeg specP db id = updateBatch specP id (p.toActive false) p := by
            unfold curSeg rowOf
            rw [hget]
          rw [hseg]
          exact batchLast_updateBatch_self specP id _ p
        · intro a ha
          obtain ⟨pa, hgeta, hacta⟩ := hcur a ha
          have hseg : curSeg specP db a = updateBatch specP a (pa.toActive false) pa := by
            unfold curSeg rowOf
            rw [hgeta]
          rw [hseg]
          by_cases hai : a = id
          · subst hai
            right
            rw [idrow_eq_of_getRow hgeta hget]
            exact batchLast_updateBatch_self specP a _ _
          · left
            apply batchLast_updateBatch_ne
            intro hc
            exact hai (primaryKey_inj specP _ _ (hbc a ha) (hbc id hid) hc)
      rw [hcurlast]
      rfl
    · intro pr p hpr hget
      rw [dbGet_applyBatch, hB, batchLast_append, batchLast_append]
      have hchunknone : batchLast (segBatch (chunkSeg specC db) cI)
          (primaryKey specP pr.1) = none := by
        apply batchLast_segBatch_none
        intro cid hcid
        obtain ⟨c, hgetc⟩ := hchunk cid hcid
        have hseg : chunkSeg specC db cid = updateBatch specC cid c.deactivate c := by
          unfold chunkSeg rowOf
          rw [hgetc]
        rw [hseg]
        exact batchLast_updateBatch_ne specC specP cid _ _ pr.1
          (primaryKey_ne_cross specC specP cid pr.1 fun hc => hPT hc.symm)
      have hnewlast : batchLast (segBatch (newSeg specP db) (nA.zip mm))
          (primaryKey specP pr.1) = some (some (specP.ser
            ((p.toActive true).updateMinMaxAndRowCount pr.2.2.1 pr.2.2.2 pr.2.1))) := by
        apply batchLast_segBatch_some
        · refine ⟨pr, hpr, ?_⟩
          have hseg : newSeg specP db pr = updateBatch specP pr.1
              ((p.toActive true).updateMinMaxAndRowCount pr.2.2.1 pr.2.2.2 pr.2.1) p := by
            unfold newSeg rowOf
            rw [hget]
          rw [hseg]
          exact batchLast_updateBatch_self specP pr.1 _ p
        · intro b hb
          obtain ⟨pb, hgetb, hactb⟩ := hnew b hb
          have hseg : newSeg specP db b = updateBatch specP b.1
              ((pb.toActive true).updateMinMaxAndRowCount b.2.2.1 b.2.2.2 b.2.1) pb := by
            unfold newSeg rowOf
            rw [hgetb]
          rw [hseg]
          by_cases hbp : b.1 = pr.1
          · right
            have hbpr : b = pr := mem_eq_of_map_nodup Prod.fst (nA.zip mm) hnodup hb hpr hbp
            subst hbpr
            rw [idrow_eq_of_getRow hgetb hget]
            exact batchLast_updateBatch_self specP b.1 _ _
          · left
            apply batchLast_updateBatch_ne
            intro hc
            exact hbp (primaryKey_inj specP _ _ (hbn b hb) (hbn pr hpr) hc)
      rw [hchunknone, hnewlast]
      rfl
    · intro cid c hcid hget
      rw [dbGet_applyBatch, hB, batchLast_append, batchLast_append]
      have hchunklast : batchLast (segBatch (chunkSeg specC db) cI)
          (primaryKey specC cid) = some (some (specC.ser c.deactivate)) := by
        apply batchLast_segBatch_some
        · refine ⟨cid, hcid, ?_⟩
          have hseg : chunkSeg specC db cid = updateBatch specC cid c.deactivate c := by
            unfold chunkSeg rowOf
            rw [hget]
          rw [hseg]
          exact batchLast_updateBatch_self specC cid _ c
        · intro b hb
          obtain ⟨cb, hgetb⟩ := hchunk b hb
          have hseg : chunkSeg specC db b = updateBatch specC b cb.deactivate cb := by
            unfold chunkSeg rowOf
            rw [hgetb]
          rw [hseg]
          by_cases hbc' : b = cid
          · right
            subst hbc'
            rw [idrow_eq_of_getRow hgetb hget]
            exact batchLast_updateBatch_self specC b _ _
          · left
            apply batchLast_updateBatch_ne
            intro hc
            exact hbc' (primaryKey_inj specC _ _ (hbk b hb) (hbk cid hcid) hc)
      rw [hchunklast]
      rfl

/-- Witness codecs for `Partition` and `Chunk` rows (witnesses may pick
any codec; the real one is flexbuffers, external to this module). -/
def optNatSer : Option Nat → Nat
  | none => 0
  | some n => n + 1

def optNatDeser (n : Nat) : Option Nat :=
  if n = 0 then none else some (n - 1)

def partSer (p : Partition) : Bytes :=
  [p.indexId, optNatSer p.parentPartitionId, optNatSer p.minValue, optNatSer p.maxValue,
   if p.active then 1 else 0, p.mainTableRowCount]

def partDeser : Bytes → Option Partition
  | [i, pp, mn, mx, a, c] =>
    some ⟨i, optNatDeser pp, optNatDeser mn, optNatDeser mx, decide (a = 1), c⟩
  | _ => none

def chunkSer (c : Chunk) : Bytes :=
  [c.partitionId, c.rowCount, if c.uploaded then 1 else 0, if c.active then 1 else 0]

def chunkDeser : Bytes → Option Chunk
  | [p, r, u, a] => some ⟨p, r, decide (u = 1), decide (a = 1)⟩
  | _ => none

def specPart : TableSpec Partition :=
  { tableId := .Partitions
    ser := partSer
    deser := partDeser
    indexes := []
    hashBytes := fun _ => 0 }

def specChunk : TableSpec Chunk :=
  { tableId := .Chunks
    ser := chunkSer
    deser := chunkDeser
    indexes := []
    hashBytes := fun _ => 0 }

/-- A store with one active partition (id 1), one inactive partition
(id 2) and one active chunk (id 5). -/
def c4Db : Db :=
  [(primaryKey specPart 1, partSer ⟨10, none, none, none, true, 7⟩),
   (primaryKey specPart 2, partSer ⟨10, some 1, none, none, false, 0⟩),
   (primaryKey specChunk 5, chunkSer ⟨1, 42, true, true⟩)]

theorem swap_active_partitions_effects_and_atomicity_witness :
    ∃ events dbF,
      writeOperation c4Db (swapActivePartitions specPart specChunk [1] [2] [5]
          [(42, some 3, some 9)]) = (.ok ((), events), dbF) ∧
      (∀ id p, id ∈ [1] → getRow specPart c4Db id = .ok (some ⟨id, p⟩) →
        dbGet dbF (primaryKey specPart id) = some (specPart.ser (p.toActive false))) ∧
      (∀ pr p, pr ∈ List.zip [2] [((42 : Nat), some 3, some 9)] →
        getRow specPart c4Db pr.1 = .ok (some ⟨pr.1, p⟩) →
        dbGet dbF (primaryKey specPart pr.1) = some (specPart.ser
          ((p.toActive true).updateMinMaxAndRowCount pr.2.2.1 pr.2.2.2 pr.2.1))) ∧
      (∀ cid c, cid ∈ [5] → getRow specChunk c4Db cid = .ok (some ⟨cid, c⟩) →
        dbGet dbF (primaryKey specChunk cid) = some (specChunk.ser c.deactivate)) :=
  (swap_active_partitions_effects_and_atomicity specPart specChunk (by decide)).2
    c4Db [1] [2] [5] [(42, some 3, some 9)]
    (by
      intro id hid
      rw [List.mem_singleton] at hid
      subst hid
      exact ⟨⟨10, none, none, none, true, 7⟩, rfl, rfl⟩)
    (by
      intro pr hpr
      have hz : List.zip [2] [((42 : Nat), some 3, some 9)] =
          [(2, 42, some 3, some 9)] := rfl
      rw [hz, List.mem_singleton] at hpr
      subst hpr
      exact ⟨⟨10, some 1, none, none, false, 0⟩, rfl, rfl⟩)
    (by
      intro cid hcid
      rw [List.mem_singleton] at hcid
      subst hcid
      exact ⟨⟨1, 42, true, true⟩, rfl⟩)
    (by decide) (by decide) (by decide) (by decide)

/-! ## C7: table scan after N inserts -/

/-- `table_scan`: the seek prefix `to_bytes()[0..get_fixed_prefix()]`,
i.e. the first 13 bytes `1 | table_id | 0u64` of `RowKey::Table(tid, 0)`. -/
def scanPrefix {T : Type} (spec : TableSpec T) : Bytes :=
  (RowKey.Table spec.tableId 0).toBytes.take 13

/-- `TableScanIter::next`, unrolled over the iterator's entry stream:
decode each key; a key that decodes to `Table(table_id, row_id)` of the
scanned table yields the deserialized row and continues; a key of a
different table, or one that is not a `Table` key, ends the scan. -/
def scanRows {T : Type} (spec : TableSpec T) :
    List (Bytes × Bytes) → List (Except CubeErr (IdRow T))
  | [] => []
  | (k, v) :: rest =>
    match RowKey.fromBytes? k with
    | some (.Table tid rid) =>
      if tid = spec.tableId then
        (match spec.deser v with
         | some row => .ok ⟨rid, row⟩
         | none => .error (.internal "deserialization error")) :: scanRows spec rest
      else []
    | _ => []

/-- `table_scan` driven to completion (`all_rows`). -/
def tableScan {T : Type} (spec : TableSpec T) (db : Db) :
    List (Except CubeErr (IdRow T)) :=
  scanRows spec (dbPrefixScan db (scanPrefix spec))

/-- N rows inserted one committed `write_operation` at a time. -/
def insertAll {T : Type} (spec : TableSpec T) : List T → Db → Except CubeErr Db
  | [], db => .ok db
  | r :: rest, db =>
    match writeOperation db (insertOp spec r) with
    | (.ok _, db') => insertAll spec rest db'
    | (.error e, _) => .error e

/-- The ids a run of inserts allocates: `s+1, s+2, ...` paired with the
rows, in order. -/
def idRows {T : Type} (s : Nat) : List T → List (Nat × T)
  | [] => []
  | r :: rest => (s + 1, r) :: idRows (s + 1) rest

theorem scanPrefix_eq {T : Type} (spec : TableSpec T) :
    scanPrefix spec = 1 :: (beBytes 4 spec.tableId.toNat ++ beBytes 8 0) := by
  unfold scanPrefix
  simp only [RowKey.toBytes]
  rw [show (13 : Nat) = 12 + 1 from rfl, List.take_succ_cons]
  rw [take_append_len _ _ 12 (by simp)]

theorem scanPrefix_prefix_primaryKey {T : Type} (spec : TableSpec T) (id : Nat) :
    (scanPrefix spec).isPrefixOf (primaryKey spec id) = true := by
  rw [scanPrefix_eq, List.isPrefixOf_iff_prefix]
  refine ⟨beBytes 8 id, ?_⟩
  simp [primaryKey, RowKey.toBytes, List.append_assoc]

theorem scanPrefix_not_prefix_seqKey {T : Type} (spec : TableSpec T) :
    (scanPrefix spec).isPrefixOf (seqKey spec) = false := by
  rw [scanPrefix_eq]
  simp [seqKey, RowKey.toBytes, List.isPrefixOf]

theorem scanPrefix_not_prefix_indexEntryKey {T : Type} (spec : TableSpec T)
    (ix : SecondaryIndexSpec T) (h rid : Nat) :
    (scanPrefix spec).isPrefixOf (indexEntryKey spec ix h rid) = false := by
  rw [scanPrefix_eq]
  simp [indexEntryKey, RowKey.toBytes, List.isPrefixOf]

theorem primaryKey_as_append {T : Type} (spec : TableSpec T) (id : Nat) :
    primaryKey spec id =
      (1 :: (beBytes 4 spec.tableId.toNat ++ beBytes 8 0)) ++ beBytes 8 id := by
  simp [primaryKey, RowKey.toBytes, List.append_assoc]

theorem primaryKey_lt {T : Type} (spec : TableSpec T) (a b : Nat) (hab : a < b)
    (hb : b < 2 ^ 64) :
    bytesLt (primaryKey spec a) (primaryKey spec b) = true := by
  rw [primaryKey_as_append, primaryKey_as_append, bytesLt_append_iff,
    bytesLt_beBytes 8 a b (by rw [pow256_eight]; omega) (by rw [pow256_eight]; omega)]
  simp [hab]

theorem primaryKey_ne_seqKey {T : Type} (spec : TableSpec T) (id : Nat) :
    primaryKey spec id ≠ seqKey spec := by
  simp [primaryKey, seqKey, RowKey.toBytes]

theorem indexEntryKey_ne_seqKey {T : Type} (spec : TableSpec T)
    (ix : SecondaryIndexSpec T) (h rid : Nat) :
    indexEntryKey spec ix h rid ≠ seqKey spec := by
  simp [indexEntryKey, seqKey, RowKey.toBytes]

/-- Decoding an engine-generated primary key. -/
theorem fromBytes?_primaryKey {T : Type} (spec : TableSpec T) (id : Nat)
    (h : id < 2 ^ 64) :
    RowKey.fromBytes? (primaryKey spec id) = some (.Table spec.tableId id) := by
  simp only [primaryKey, RowKey.toBytes, RowKey.fromBytes?]
  rw [if_pos (by simp)]
  rw [show beBytes 4 spec.tableId.toNat ++ beBytes 8 0 ++ beBytes 8 id =
    beBytes 4 spec.tableId.toNat ++ (beBytes 8 0 ++ beBytes 8 id) from by
      rw [List.append_assoc]]
  rw [take_append_len _ _ 4 (by simp)]
  rw [fromBe_beBytes 4 _ (by rw [pow256_four]; exact spec.tableId.toNat_lt),
    TableId.fromNat?_toNat]
  rw [show (12 : Nat) = 4 + 8 from rfl, ← List.drop_drop,
    drop_append_len _ _ 4 (by simp), drop_append_len _ _ 8 (by simp),
    List.take_of_length_le (by simp),
    fromBe_beBytes 8 id (by rw [pow256_eight]; exact h)]

theorem dbPrefixScan_put_matching {db : Db} (hs : DbSorted db) (k v p : Bytes)
    (hp : p.isPrefixOf k = true)
    (hgt : ∀ kv ∈ dbPrefixScan db p, bytesLt kv.1 k = true) :
    dbPrefixScan (dbPut db k v) p = dbPrefixScan db p ++ [(k, v)] := by
  induction db with
  | nil => simp [dbPut, dbPrefixScan, hp]
  | cons kv0 rest ih =>
    obtain ⟨k', v'⟩ := kv0
    have hsrest : DbSorted rest := (List.pairwise_cons.mp hs).2
    cases h1 : bytesLt k k' with
    | true =>
      rw [dbPut_cons_lt _ _ _ h1]
      have hblock : dbPrefixScan ((k', v') :: rest) p = [] := by
        cases hfe : dbPrefixScan ((k', v') :: rest) p with
        | nil => rfl
        | cons a l =>
          exfalso
          have hamem : a ∈ dbPrefixScan ((k', v') :: rest) p := by
            rw [hfe]; exact List.mem_cons_self _ _
          have halt := hgt a hamem
          rw [dbPrefixScan, List.mem_filter] at hamem
          rcases List.mem_cons.mp hamem.1 with rfl | hmem
          · rw [bytesLt_asymm halt] at h1
            exact Bool.false_ne_true h1
          · have hk'a : bytesLt k' a.1 = true :=
              (List.pairwise_cons.mp hs).1 a hmem
            have : bytesLt k k = true :=
              bytesLt_trans (bytesLt_trans h1 hk'a) halt
            rw [bytesLt_irrefl] at this
            exact Bool.false_ne_true this
      have hcons : dbPrefixScan ((k, v) :: (k', v') :: rest) p =
          (k, v) :: dbPrefixScan ((k', v') :: rest) p := by
        simp [dbPrefixScan, List.filter_cons, hp]
      rw [hcons, hblock]
      rfl
    | false =>
      by_cases h2 : k = k'
      · exfalso
        have hmem : (k', v') ∈ dbPrefixScan ((k', v') :: rest) p := by
          rw [dbPrefixScan, List.mem_filter]
          exact ⟨List.mem_cons_self _ _, by rw [← h2]; exact hp⟩
        have := hgt (k', v') hmem
        rw [← h2, bytesLt_irrefl] at this
        exact Bool.false_ne_true this
      · rw [dbPut_cons_gt _ _ _ h1 h2]
        have ihr := ih hsrest fun kv hkv => hgt kv (by
          rw [dbPrefixScan, List.mem_filter] at hkv ⊢
          exact ⟨List.mem_cons_of_mem _ hkv.1, hkv.2⟩)
        cases hp' : p.isPrefixOf k' with
        | true =>
          have hl : dbPrefixScan ((k', v') :: dbPut rest k v) p =
              (k', v') :: dbPrefixScan (dbPut rest k v) p := by
            simp [dbPrefixScan, List.filter_cons, hp']
          have hr : dbPrefixScan ((k', v') :: rest) p =
              (k', v') :: dbPrefixScan rest p := by
            simp [dbPrefixScan, List.filter_cons, hp']
          rw [hl, hr, ihr]
          rfl
        | false =>
          have hl : dbPrefixScan ((k', v') :: dbPut rest k v) p =
              dbPrefixScan (dbPut rest k v) p := by
            simp [dbPrefixScan, List.filter_cons, hp']
          have hr : dbPrefixScan ((k', v') :: rest) p = dbPrefixScan rest p := by
            simp [dbPrefixScan, List.filter_cons, hp']
          rw [hl, hr, ihr]

theorem dbPrefixScan_applyBatch_puts (D : Db) (batch : List BatchEntry) (p : Bytes)
    (h : ∀ e ∈ batch, ∃ k' v', e = .put k' v' ∧ p.isPrefixOf k' = false) :
    dbPrefixScan (applyBatch D batch) p = dbPrefixScan D p := by
  induction batch generalizing D with
  | nil => rfl
  | cons e rest ih =>
    obtain ⟨k', v', rfl, hpf⟩ := h e (List.mem_cons_self _ _)
    show dbPrefixScan (applyBatch (dbPut D k' v') rest) p = _
    rw [ih _ fun e he => h e (List.mem_cons_of_mem _ he),
      dbPrefixScan_put_other _ _ _ _ hpf]

theorem applyBatch_sorted {db : Db} (hs : DbSorted db) (batch : List BatchEntry) :
    DbSorted (applyBatch db batch) := by
  induction batch generalizing db with
  | nil => exact hs
  | cons e rest ih =>
    cases e with
    | put k v => exact ih (dbPut_sorted hs k v)
    | del k => exact ih (dbDelete_sorted hs k)

theorem seqNow_applyBatch_untouched {T : Type} (spec : TableSpec T) (D : Db)
    (batch : List BatchEntry) (h : ∀ e ∈ batch, BatchEntry.keyOf e ≠ seqKey spec) :
    seqNow spec (applyBatch D batch) = seqNow spec D := by
  unfold seqNow
  rw [dbGet_applyBatch, batchLast_eq_none _ _ h]
  rfl

theorem idRows_fst_le {T : Type} (rows : List T) :
    ∀ s, ∀ ir ∈ idRows s rows, s < ir.1 ∧ ir.1 ≤ s + rows.length := by
  induction rows with
  | nil => intro s ir h; cases h
  | cons r rest ih =>
    intro s ir h
    rcases List.mem_cons.mp h with rfl | h
    · simp
    · have := ih (s + 1) ir h
      simp only [List.length_cons]
      omega

/-- Scanning a block of engine-generated primary rows yields exactly the
rows, each under its id. -/
theorem scanRows_map_block {T : Type} (spec : TableSpec T) (hser : spec.SerInv)
    (its : List (Nat × T)) (hb : ∀ ir ∈ its, ir.1 < 2 ^ 64) :
    scanRows spec (its.map fun ir => (primaryKey spec ir.1, spec.ser ir.2)) =
      its.map fun ir => .ok ⟨ir.1, ir.2⟩ := by
  induction its with
  | nil => rfl
  | cons ir rest ih =>
    obtain ⟨id, r⟩ := ir
    simp only [List.map_cons, scanRows,
      fromBytes?_primaryKey spec id (hb (id, r) (List.mem_cons_self _ _))]
    rw [if_pos trivial, hser r, ih fun ir h => hb ir (List.mem_cons_of_mem _ h)]

/-- The scan ends at the first key of a different table. -/
theorem scanRows_stops_at_other_table {T : Type} (spec : TableSpec T)
    (es : List (Bytes × Bytes)) (k v : Bytes) (rest : List (Bytes × Bytes))
    (tid : TableId) (rid : Nat)
    (hk : RowKey.fromBytes? k = some (.Table tid rid)) (hne : tid ≠ spec.tableId) :
    scanRows spec (es ++ (k, v) :: rest) = scanRows spec es := by
  induction es with
  | nil =>
    show scanRows spec ((k, v) :: rest) = ([] : List (Except CubeErr (IdRow T)))
    simp only [scanRows, hk]
    rw [if_neg hne]
  | cons e es' ih =>
    obtain ⟨k0, v0⟩ := e
    show scanRows spec ((k0, v0) :: (es' ++ (k, v) :: rest)) =
      scanRows spec ((k0, v0) :: es')
    cases hd : RowKey.fromBytes? k0 with
    | none => simp only [scanRows, hd]
    | some rk =>
      cases rk with
      | Table tid0 rid0 =>
        simp only [scanRows, hd]
        by_cases ht : tid0 = spec.tableId
        · rw [if_pos ht, if_pos ht, ih]
        · rw [if_neg ht, if_neg ht]
      | Sequence t => simp only [scanRows, hd]
      | SecondaryIndex a b c => simp only [scanRows, hd]

/-- Invariant run of `insertAll`: from a sorted well-formed store whose
counter reads `s` and whose primary block lies strictly below the next
allocated key, a successful run appends exactly one primary entry per
row, at ids `s+1, s+2, ...`, and preserves the invariants. -/
theorem insertAll_ok_block {T : Type} (spec : TableSpec T) (hser : spec.SerInv)
    (rows : List T) :
    ∀ db s dbF, DbSorted db → DbWF spec db → seqNow spec db = s →
      s + rows.length + 1 < 2 ^ 64 →
      (∀ kv ∈ dbPrefixScan db (scanPrefix spec),
        bytesLt kv.1 (primaryKey spec (s + 1)) = true) →
      insertAll spec rows db = .ok dbF →
      dbPrefixScan dbF (scanPrefix spec) = dbPrefixScan db (scanPrefix spec) ++
        (idRows s rows).map (fun ir => (primaryKey spec ir.1, spec.ser ir.2)) := by
  induction rows with
  | nil =>
    intro db s dbF _ _ _ _ _ hins
    have hdb : db = dbF := by
      have h : (Except.ok db : Except CubeErr Db) = .ok dbF := hins
      simpa using h
    rw [← hdb]
    simp [idRows]
  | cons r rest ih =>
    intro db s dbF hsort hwf hseq hbound hlt hins
    rcases hw : writeOperation db (insertOp spec r) with ⟨res, db1⟩
    cases res with
    | error e =>
      simp only [insertAll, hw] at hins
      exact absurd hins (by simp)
    | ok z =>
      simp only [insertAll, hw] at hins
      rcases hio : insertOp spec r db BatchPipe.empty with ⟨ires, db', pipe'⟩
      cases ires with
      | error e =>
        simp only [writeOperation, hio] at hw
        exact absurd (congrArg Prod.fst hw) (by simp)
      | ok idr =>
        have hchk := (insertOp_ok_elim spec r db BatchPipe.empty hio).1
        have hio2 := insertOp_eq_of_check_ok spec r db BatchPipe.empty hchk
        rw [hseq] at hio2
        have hcomp := hio.symm.trans hio2
        simp only [Prod.mk.injEq, Except.ok.injEq] at hcomp
        obtain ⟨hidr, hdb', hpipe'⟩ := hcomp
        have hdb1 : db1 = applyBatch db' pipe'.batch := by
          simp only [writeOperation, hio] at hw
          exact (congrArg Prod.snd hw).symm
        have hbatch : pipe'.batch =
            BatchEntry.put (primaryKey spec (s + 1)) (spec.ser r) ::
              (insertIndexRow spec r (s + 1)).map (fun kv => BatchEntry.put kv.1 kv.2) := by
          rw [hpipe', insert_pipe_batch]
          rfl
        have hblock1 : dbPrefixScan db1 (scanPrefix spec) =
            dbPrefixScan db (scanPrefix spec) ++
              [(primaryKey spec (s + 1), spec.ser r)] := by
          rw [hdb1, hbatch]
          show dbPrefixScan (applyBatch
            (dbPut db' (primaryKey spec (s + 1)) (spec.ser r))
            ((insertIndexRow spec r (s + 1)).map (fun kv => BatchEntry.put kv.1 kv.2)))
            (scanPrefix spec) = _
          rw [dbPrefixScan_applyBatch_puts _ _ _ (by
            intro e he
            obtain ⟨kv, hkv, rfl⟩ := List.mem_map.mp he
            simp only [insertIndexRow, List.mem_map] at hkv
            obtain ⟨ix, hix, rfl⟩ := hkv
            exact ⟨_, _, rfl, scanPrefix_not_prefix_indexEntryKey spec ix _ _⟩)]
          rw [hdb']
          have hscanseq : dbPrefixScan (dbPut db (seqKey spec) (beBytes 8 (s + 1)))
              (scanPrefix spec) = dbPrefixScan db (scanPrefix spec) :=
            dbPrefixScan_put_other _ _ _ _ (scanPrefix_not_prefix_seqKey spec)
          rw [dbPrefixScan_put_matching (dbPut_sorted hsort _ _) _ _ _
            (scanPrefix_prefix_primaryKey spec (s + 1)) (by
              rw [hscanseq]
              exact hlt), hscanseq]
        have hsort1 : DbSorted db1 := by
          rw [hdb1, hdb']
          exact applyBatch_sorted (dbPut_sorted hsort _ _) _
        have hwf1 : DbWF spec db1 := by
          rw [hdb1]
          exact insertOp_commit_wf spec r db hwf hio
        have hseq1 : seqNow spec db1 = s + 1 := by
          rw [hdb1, hbatch, seqNow_applyBatch_untouched spec _ _ (by
            intro e he
            rcases List.mem_cons.mp he with rfl | he
            · exact primaryKey_ne_seqKey spec _
            · obtain ⟨kv, hkv, rfl⟩ := List.mem_map.mp he
              simp only [insertIndexRow, List.mem_map] at hkv
              obtain ⟨ix, hix, rfl⟩ := hkv
              exact indexEntryKey_ne_seqKey spec ix _ _), hdb']
          exact seqNow_put_seq spec db (s + 1) (by omega)
        have hlt1 : ∀ kv ∈ dbPrefixScan db1 (scanPrefix spec),
            bytesLt kv.1 (primaryKey spec (s + 1 + 1)) = true := by
          intro kv hkv
          rw [hblock1] at hkv
          rcases List.mem_append.mp hkv with h | h
          · exact bytesLt_trans (hlt kv h)
              (primaryKey_lt spec (s + 1) (s + 1 + 1) (by omega) (by
                simp only [List.length_cons] at hbound
                omega))
          · rw [List.mem_singleton] at h
            rw [h]
            exact primaryKey_lt spec (s + 1) (s + 1 + 1) (by omega) (by
              simp only [List.length_cons] at hbound
              omega)
        have hrest := ih db1 (s + 1) dbF hsort1 hwf1 hseq1 (by
          simp only [List.length_cons] at hbound
          omega) hlt1 hins
        rw [hrest, hblock1]
        show _ = dbPrefixScan db (scanPrefix spec) ++
          ((primaryKey spec (s + 1), spec.ser r) ::
            (idRows (s + 1) rest).map (fun ir => (primaryKey spec ir.1, spec.ser ir.2)))
        rw [List.append_assoc]
        rfl

/-- **C7** (functional correctness): starting from a store with no rows
of the scanned table, inserting N rows (each a committed
`write_operation`) and scanning yields exactly those N rows in
insertion order under the consecutively allocated, strictly ascending
ids `seq+1, ..., seq+N`; and the scan stops at the first key whose
`table_id` differs from the scanned table's id. -/
theorem insert_n_rows_scan_ascending_and_stop {T : Type} (spec : TableSpec T)
    (hser : spec.SerInv) :
    (∀ rows db dbF, DbSorted db → DbWF spec db →
      dbPrefixScan db (scanPrefix spec) = [] →
      seqNow spec db + rows.length + 1 < 2 ^ 64 →
      insertAll spec rows db = .ok dbF →
      tableScan spec dbF =
        (idRows (seqNow spec db) rows).map (fun ir => .ok ⟨ir.1, ir.2⟩)) ∧
    (∀ es k v rest tid rid, RowKey.fromBytes? k = some (.Table tid rid) →
      tid ≠ spec.tableId →
      scanRows spec (es ++ (k, v) :: rest) = scanRows spec es) := by
  constructor
  · intro rows db dbF hsort hwf hempty hbound hins
    have hblock := insertAll_ok_block spec hser rows db (seqNow spec db) dbF
      hsort hwf rfl hbound (by rw [hempty]; intro kv h; cases h) hins
    rw [hempty, List.nil_append] at hblock
    unfold tableScan
    rw [hblock]
    exact scanRows_map_block spec hser _ fun ir hir => by
      have := (idRows_fst_le rows (seqNow spec db)) ir hir
      omega
  · intro es k v rest tid rid hk hne
    exact scanRows_stops_at_other_table spec es k v rest tid rid hk hne

/-- The store left by inserting rows 4 and 5 into the empty store. -/
def c7DbF : Db :=
  match insertAll specNoIndex [4, 5] [] with
  | .ok d => d
  | .error _ => []

theorem insert_n_rows_scan_ascending_and_stop_witness :
    tableScan specNoIndex c7DbF = [.ok ⟨1, 4⟩, .ok ⟨2, 5⟩] ∧
    scanRows specNoIndex ([] ++ ((RowKey.Table .Tables 0).toBytes, []) :: []) =
      ([] : List (Except CubeErr (IdRow Nat))) :=
  ⟨(insert_n_rows_scan_ascending_and_stop specNoIndex fun t => rfl).1
      [4, 5] [] c7DbF (List.Pairwise.nil) (by decide) rfl (by decide) rfl,
    (insert_n_rows_scan_ascending_and_stop specNoIndex fun t => rfl).2
      [] (RowKey.Table .Tables 0).toBytes [] [] .Tables 0 rfl (by decide)⟩

/-! ## C5: cold-start log replay order -/

/-- The remote name of an incremental log file, `<min_seq>.log`, as a
byte string (decimal digits, then ".log"). -/
def logName (n : Nat) : Bytes :=
  (Nat.toDigits 10 n).map Char.toNat ++ [46, 108, 111, 103]

/-- Insertion into a list kept sorted by lexicographic order of the file
name. -/
def insertByName (f : Nat × List BatchEntry) :
    List (Nat × List BatchEntry) → List (Nat × List BatchEntry)
  | [] => [f]
  | g :: rest =>
    if bytesLt (logName f.1) (logName g.1) then f :: g :: rest
    else g :: insertByName f rest

/-- Modelled from the spec: `remote_fs.list(prefix)` (remotefs is not in
the tree) returns the matching paths in lexicographic byte order of the
path name, as an object-store listing does. -/
def listOrder (files : List (Nat × List BatchEntry)) :
    List (Nat × List BatchEntry) :=
  files.foldr insertByName []

/-- Insertion into a list kept sorted by the numeric `<min_seq>`. -/
def insertByNum (f : Nat × List BatchEntry) :
    List (Nat × List BatchEntry) → List (Nat × List BatchEntry)
  | [] => [f]
  | g :: rest =>
    if f.1 < g.1 then f :: g :: rest
    else g :: insertByNum f rest

def numOrder (files : List (Nat × List BatchEntry)) :
    List (Nat × List BatchEntry) :=
  files.foldr insertByNum []

/-- `load_from_remote`, replay phase: iterate `logs_to_batch` — the
listing of `metastore-<t_ms>-logs` in the order `remote_fs.list`
returned it, with NO reordering in the source — and apply each log file
as one atomic write. -/
def loadFromRemoteReplay (db : Db) (files : List (Nat × List BatchEntry)) : Db :=
  (listOrder files).foldl (fun d fb => applyBatch d fb.2) db

/-- The replay the spec's words mandate (§4.G cold start, step 6): sort
the log files by the embedded `<min_seq>` ascending, then apply each as
one atomic write.  Stated from the spec for comparison with the
source-derived `loadFromRemoteReplay`. -/
def specMandatedReplay (db : Db) (files : List (Nat × List BatchEntry)) : Db :=
  (numOrder files).foldl (fun d fb => applyBatch d fb.2) db

/-- Log files `9.log` and `10.log` writing different values to one key. -/
def c5Files : List (Nat × List BatchEntry) :=
  [(9, [BatchEntry.put [0] [1]]), (10, [BatchEntry.put [0] [2]])]

/-- **C5** (functional correctness) — refuted, code bug: the source
replays the incremental logs in the raw listing order (lexicographic by
file name) with no numeric sort, so with log files `9.log` and `10.log`
the name `"10.log"` lists before `"9.log"` and the older log overwrites
the newer one: the recovered store differs from the numeric-order
replay the spec mandates. -/
theorem log_replay_listing_order_not_numeric :
    listOrder c5Files = [(10, [BatchEntry.put [0] [2]]), (9, [BatchEntry.put [0] [1]])] ∧
    numOrder c5Files = [(9, [BatchEntry.put [0] [1]]), (10, [BatchEntry.put [0] [2]])] ∧
    dbGet (loadFromRemoteReplay [] c5Files) [0] = some [1] ∧
    dbGet (specMandatedReplay [] c5Files) [0] = some [2] ∧
    loadFromRemoteReplay [] c5Files ≠ specMandatedReplay [] c5Files := by
  refine ⟨?_, ?_, ?_, ?_, ?_⟩ <;> decide

/-! ## C10: checkpoint retention -/

/-- Path strings as ASCII byte lists (the Lean `String` API does not
reduce in the kernel; remote paths are pure ASCII). -/
def strBytes (s : String) : Bytes := s.toList.map Char.toNat

/-- `str::replace(pat, "")`: remove every non-overlapping occurrence of
`pat`, scanning left to right.  (`(c :: rest).drop pat.length` is
written `rest.drop (pat.length - 1)`, equal for the nonempty `pat` the
guard demands.) -/
def replaceAllGo (pat : Bytes) : Nat → Bytes → Bytes
  | _, [] => []
  | 0, s => s
  | fuel + 1, c :: rest =>
    if pat ≠ [] ∧ pat.isPrefixOf (c :: rest) = true then
      replaceAllGo pat fuel (rest.drop (pat.length - 1))
    else c :: replaceAllGo pat fuel rest

def replaceAll (pat s : Bytes) : Bytes := replaceAllGo pat s.length s

/-- `u128::from_str`: an optional leading `+`, then one or more decimal
digits, value below `2^128`. -/
def parseU128? (s : Bytes) : Option Nat :=
  let t := match s with
    | 43 :: rest => rest
    | _ => s
  if t ≠ [] ∧ t.all (fun c => decide (48 ≤ c ∧ c ≤ 57)) = true then
    let v := t.foldl (fun a c => a * 10 + (c - 48)) 0
    if v < 2 ^ 128 then some v else none
  else none

/-- The retention parse of `upload_checkpoint`: take the leading
path component (`split("/").nth(0)`), remove every occurrence of
`"metastore-"` and of `"-logs"`, and parse the remainder as a
timestamp. -/
def retentionParse (existing : Bytes) : Option Nat :=
  parseU128? (replaceAll (strBytes "-logs")
    (replaceAll (strBytes "metastore-") (existing.takeWhile (fun c => c != 47))))

/-- The retention filter: a listed path is deleted when its parsed
timestamp is more than three minutes old.  (`now_ms - millis` is the
saturating `Nat` difference; a future timestamp is not deleted.) -/
def retentionDeletes (nowMs : Nat) (existing : Bytes) : Bool :=
  match retentionParse existing with
  | some millis => decide (nowMs - millis > 3 * 60 * 1000)
  | none => false

def retentionToDelete (nowMs : Nat) (listing : List Bytes) : List Bytes :=
  listing.filter (retentionDeletes nowMs)

/-- The parse the claim describes, stated from the claim's words for
comparison: the leading component must be exactly `metastore-` followed
by decimal digits, allowing one trailing `-logs` suffix to be stripped
first. -/
def claimedParse (existing : Bytes) : Option Nat :=
  let c := existing.takeWhile (fun b => b != 47)
  if (strBytes "metastore-").isPrefixOf c = true then
    let rest := c.drop 10
    let core := if (strBytes "-logs").isSuffixOf rest = true then
      rest.take (rest.length - 5) else rest
    if core ≠ [] ∧ core.all (fun b => decide (48 ≤ b ∧ b ≤ 57)) = true then
      let v := core.foldl (fun a b => a * 10 + (b - 48)) 0
      if v < 2 ^ 128 then some v else none
    else none
  else none

/-- The retention step deletes `metastore-1-logs2`, whose name does not
have the claimed `metastore-<digits>[-logs]` shape: the replace-all
strips the inner `-logs` and glues `1` and `2` into the timestamp 12. -/
theorem retention_deletes_unanchored_name :
    claimedParse (strBytes "metastore-1-logs2") = none ∧
    retentionParse (strBytes "metastore-1-logs2") = some 12 ∧
    strBytes "metastore-1-logs2" ∈
      retentionToDelete 1000000
        [strBytes "metastore-1-logs2", strBytes "metastore-current"] := by
  refine ⟨?_, ?_, ?_⟩ <;> decide

/-- **C10** (amended): the retention step deletes exactly the listed
paths whose leading component, after removing every occurrence of the
substrings `metastore-` and `-logs` (not merely an anchored prefix and
suffix), parses as a decimal timestamp more than three minutes old; the
pointer file `metastore-current` never parses and is never deleted, and
canonical snapshot and log-directory paths are governed by their
embedded timestamp. -/
theorem retention_strip_all_characterization :
    (∀ nowMs listing p, p ∈ retentionToDelete nowMs listing ↔
      p ∈ listing ∧ ∃ m, retentionParse p = some m ∧ 3 * 60 * 1000 < nowMs - m) ∧
    (∀ nowMs listing, strBytes "metastore-current" ∉ retentionToDelete nowMs listing) ∧
    (∀ nowMs,
      retentionDeletes nowMs (strBytes "metastore-1700000000000") =
        decide (3 * 60 * 1000 < nowMs - 1700000000000) ∧
      retentionDeletes nowMs (strBytes "metastore-1700000000000-logs/42.log") =
        decide (3 * 60 * 1000 < nowMs - 1700000000000)) := by
  refine ⟨?_, ?_, ?_⟩
  · intro nowMs listing p
    rw [retentionToDelete, List.mem_filter]
    constructor
    · rintro ⟨hm, hd⟩
      refine ⟨hm, ?_⟩
      cases hp : retentionParse p with
      | none =>
        simp only [retentionDeletes, hp] at hd
        exact absurd hd (by simp)
      | some m =>
        simp only [retentionDeletes, hp, decide_eq_true_eq] at hd
        exact ⟨m, rfl, hd⟩
    · rintro ⟨hm, m, hp, hlt⟩
      refine ⟨hm, ?_⟩
      simp only [retentionDeletes, hp, decide_eq_true_eq]
      exact hlt
  · intro nowMs listing h
    rw [retentionToDelete, List.mem_filter] at h
    have hf : retentionDeletes nowMs (strBytes "metastore-current") = false := rfl
    rw [hf] at h
    exact absurd h.2 (by simp)
  · intro nowMs
    exact ⟨rfl, rfl⟩

theorem retention_strip_all_characterization_witness :
    strBytes "metastore-1-logs2" ∈
      retentionToDelete 1000000 [strBytes "metastore-1-logs2"] :=
  (retention_strip_all_characterization.1 1000000 [strBytes "metastore-1-logs2"]
    (strBytes "metastore-1-logs2")).mpr
    ⟨List.mem_singleton.mpr rfl, 12, by decide, by decide⟩

end Metastore
